import Mathlib

/-!
# fastmatching: a suffix-expanded, sorted, binary-searched substring index

Shallow embedding of `fastmatching.go`.

* Go strings are byte sequences (`Bytes`); a `rune` and an `int32` value are both `Int`:
  the code compares and copies them and does no arithmetic on them.
* Go slices that may be `nil` are `Option (List _)`, `none` being `nil`.
* Every slice index and pointer dereference is checked: a Go run-time panic is an
  `Err`, and a loop that would exceed its iteration budget is `Err.fuel`.
* Go `int` loop counters are unbounded integers: they stay below the slice length,
  so the 64-bit wrap-around of `int` is never reached.
* The mutex of `FastMatching` is not modelled: the embedding is sequential.
-/

namespace fastmatching

/-! ## Run-time outcomes -/

/-- Ways a run of the Go code can fail to return. -/
inductive Err where
  | nilDeref
  | indexOutOfRange
  | makeSliceLen
  | fuel
  deriving DecidableEq, Repr

/-- Result of running a piece of Go code. -/
abbrev Run (α : Type) := Except Err α

/-- Equality of outcomes is decidable. -/
instance instDecidableEqRun {α : Type} [DecidableEq α] : DecidableEq (Run α)
  | .ok a, .ok b => if h : a = b then isTrue (by rw [h]) else isFalse (fun h1 => h (by cases h1; rfl))
  | .error a, .error b =>
    if h : a = b then isTrue (by rw [h]) else isFalse (fun h1 => h (by cases h1; rfl))
  | .ok _, .error _ => isFalse (fun h => by cases h)
  | .error _, .ok _ => isFalse (fun h => by cases h)

/-- Bytes of a Go string. -/
abbrev Bytes := List Nat

/-- Checked slice read `l[i]` with a counter that starts at zero. -/
def idx {α : Type} (l : List α) (i : Nat) : Run α :=
  match l[i]? with
  | some x => .ok x
  | none => .error .indexOutOfRange

/-- Checked slice read `l[i]` with a Go `int` index. -/
def index {α : Type} (l : List α) (i : Int) : Run α :=
  if i < 0 then .error .indexOutOfRange else idx l i.toNat

/-- Checked slice write `l[i] = x` with a counter that starts at zero. -/
def store {α : Type} (l : List α) (i : Nat) (x : α) : Run (List α) :=
  if i < l.length then .ok (l.set i x) else .error .indexOutOfRange

/-- Checked pointer dereference `*p`. -/
def deref {α : Type} (p : Option α) : Run α :=
  match p with
  | some x => .ok x
  | none => .error .nilDeref

/-! ## Go standard library: `unicode/utf8` and `strings.ToLower` -/

/-- The constant `utf8.RuneError`. -/
def RuneError : Int := 0xFFFD

/-- Lowest second byte accepted after the leading byte `b0` of a multi-byte sequence. -/
def acceptLo (b0 : Nat) : Nat :=
  if b0 = 0xE0 then 0xA0 else if b0 = 0xF0 then 0x90 else 0x80

/-- Highest second byte accepted after the leading byte `b0` of a multi-byte sequence. -/
def acceptHi (b0 : Nat) : Nat :=
  if b0 = 0xED then 0x9F else if b0 = 0xF4 then 0x8F else 0xBF

/-- Continuation byte `10xxxxxx`. -/
def isCont (b : Nat) : Bool := decide (0x80 ≤ b) && decide (b ≤ 0xBF)

/-- Library `utf8.DecodeRune`: the first rune of `p` and its width in bytes; `(RuneError, 0)`
on empty input and `(RuneError, 1)` on an encoding that is not well-formed (stray or missing
continuation byte, overlong form, surrogate, value above U+10FFFF). -/
def DecodeRune : Bytes → Int × Nat
  | [] => (RuneError, 0)
  | b0 :: rest =>
    if b0 < 0x80 then ((b0 : Int), 1)
    else if 0xC2 ≤ b0 ∧ b0 ≤ 0xDF then
      match rest with
      | b1 :: _ =>
        if isCont b1 then ((((b0 % 32) * 64 + b1 % 64 : Nat) : Int), 2) else (RuneError, 1)
      | [] => (RuneError, 1)
    else if 0xE0 ≤ b0 ∧ b0 ≤ 0xEF then
      match rest with
      | b1 :: b2 :: _ =>
        if acceptLo b0 ≤ b1 ∧ b1 ≤ acceptHi b0 ∧ isCont b2 = true then
          ((((b0 % 16) * 4096 + (b1 % 64) * 64 + b2 % 64 : Nat) : Int), 3)
        else (RuneError, 1)
      | _ => (RuneError, 1)
    else if 0xF0 ≤ b0 ∧ b0 ≤ 0xF4 then
      match rest with
      | b1 :: b2 :: b3 :: _ =>
        if acceptLo b0 ≤ b1 ∧ b1 ≤ acceptHi b0 ∧ isCont b2 = true ∧ isCont b3 = true then
          ((((b0 % 8) * 262144 + (b1 % 64) * 4096 + (b2 % 64) * 64 + b3 % 64 : Nat) : Int), 4)
        else (RuneError, 1)
      | _ => (RuneError, 1)
    else (RuneError, 1)

/-- Scan of `utf8.Valid`: at most `n` decoding steps over `p`. -/
def ValidLoop : Nat → Bytes → Bool
  | 0, p => p.isEmpty
  | n + 1, p =>
    match p with
    | [] => true
    | _ :: _ =>
      if (DecodeRune p).2 = 1 ∧ (DecodeRune p).1 = RuneError then false
      else ValidLoop n (p.drop (DecodeRune p).2)

/-- Library `utf8.Valid`: `p` consists entirely of well-formed encoded runes. -/
def Valid (p : Bytes) : Bool := ValidLoop p.length p

/-- Scan of `utf8.RuneCount`: at most `n` decoding steps over `p`. -/
def RuneCountLoop : Nat → Bytes → Nat
  | 0, _ => 0
  | n + 1, p =>
    match p with
    | [] => 0
    | _ :: _ => RuneCountLoop n (p.drop (DecodeRune p).2) + 1

/-- Library `utf8.RuneCount`: the number of runes in `p`, a byte that is not part of a
well-formed encoding counting as one rune. -/
def RuneCount (p : Bytes) : Nat := RuneCountLoop p.length p

/-- ASCII branch of `strings.ToLower` on one byte: `A`..`Z` move to `a`..`z`. -/
def lowerByte (c : Nat) : Nat :=
  if 65 ≤ c ∧ c ≤ 90 then c + 32 else c

/-- Library `strings.ToLower`. A string of ASCII bytes only is lowered byte by byte, as the
library does; for any other string the library maps `unicode.ToLower` over the decoded runes,
which needs the Unicode case tables: that branch is the parameter `unicodeLower`. -/
def ToLower (unicodeLower : Bytes → Bytes) (s : Bytes) : Bytes :=
  if s.all (fun c => decide (c < 0x80)) then s.map lowerByte else unicodeLower s

/-! ## `String2RuneList` -/

/-- Loop of `String2RuneList`: `for i := 0; len(buf) > 0; i++`, each turn decoding one rune,
advancing `buf` by its width and writing the rune to `runeList[i]`. Each turn consumes at least
one byte, so `fuel = len(buf)` turns are enough. -/
def String2RuneListLoop : Nat → Bytes → Nat → List Int → Run (List Int)
  | 0, buf, _, runeList => if 0 < buf.length then .error .fuel else .ok runeList
  | fuel + 1, buf, i, runeList =>
    if 0 < buf.length then
      match store runeList i (DecodeRune buf).1 with
      | .ok runeList1 =>
        String2RuneListLoop fuel (buf.drop (DecodeRune buf).2) (i + 1) runeList1
      | .error e => .error e
    else .ok runeList

/-- Source `String2RuneList`: the runes of `str` and their number. -/
def String2RuneList (str : Bytes) : Run (List Int × Nat) :=
  let buf := str
  let sz := RuneCount buf
  let runeList := List.replicate sz (0 : Int)
  match String2RuneListLoop buf.length buf 0 runeList with
  | .ok runeList1 => .ok (runeList1, sz)
  | .error e => .error e

/-! ## `searchItem` and the order `ByRune` -/

/-- Source `searchItem`. -/
structure searchItem where
  key : List Int
  value : Int
  deriving DecidableEq, Repr

/-- Loop and final comparison of `ByRune.Less` on the two keys: `for k := 0; k < minlen; k++`
runs `minlen - k` more turns, then `len1 < len2` decides. -/
def ByRune.LessLoop (ki kj : List Int) (len1 len2 : Nat) : Nat → Nat → Run Bool
  | 0, _ => .ok (decide (len1 < len2))
  | n + 1, k => do
    let x ← idx ki k
    let y ← idx kj k
    if x ≠ y then .ok (decide (x < y)) else ByRune.LessLoop ki kj len1 len2 n (k + 1)

/-- Body of `ByRune.Less` once `a[i].key` and `a[j].key` are read. -/
def ByRune.LessKeys (ki kj : List Int) : Run Bool :=
  let len1 := ki.length
  let len2 := kj.length
  let minlen := if len1 > len2 then len2 else len1
  ByRune.LessLoop ki kj len1 len2 minlen 0

/-- Source `ByRune.Less(i, j)`. -/
def ByRune.Less (a : List searchItem) (i j : Nat) : Run Bool := do
  let ai ← idx a i
  let aj ← idx a j
  ByRune.LessKeys ai.key aj.key

/-- The Go library the index is built on: the Unicode branch of `strings.ToLower`, and
`sort.Sort` over `ByRune`, which rearranges the slice so that no later element is `Less`
than an earlier one. `sort.Sort` is not stable: nothing more is known of the order of
records with equal keys. -/
structure GoLib where
  unicodeLower : Bytes → Bytes
  sort : List searchItem → List searchItem
  sort_perm : ∀ l, (sort l).Perm l
  sort_sorted : ∀ l i j, i < j → j < (sort l).length → ByRune.Less (sort l) j i = .ok false

/-! ## The index -/

/-- Source `FastMatching`; the `locker` field is left out. -/
structure FastMatching where
  dataList : List searchItem
  searchList : Option (List searchItem)
  needReIndex : Bool
  nullResult : List Int
  deriving DecidableEq, Repr

/-- Source `NewFastMatching`. -/
def NewFastMatching : FastMatching :=
  { dataList := [], needReIndex := true, searchList := none, nullResult := [] }

/-- Records `reindex` pushes for one entry: the entry itself, then for `i := 1; i < sz; i++`
a fresh record holding `k[i:]` and the entry's value. -/
def suffixItems (item : searchItem) : List searchItem :=
  item :: (List.range' 1 (item.key.length - 1)).map
    (fun i => { key := item.key.drop i, value := item.value })

/-- Source `reindex`. -/
def reindex (lib : GoLib) (svc : FastMatching) : Run FastMatching := do
  let svc1 :=
    if svc.needReIndex then
      { svc with searchList := some (svc.dataList.flatMap suffixItems) }
    else svc
  let svc2 := { svc1 with needReIndex := false }
  let l ← deref svc2.searchList
  .ok { svc2 with searchList := some (lib.sort l) }

/-- Loop and tail of `subRuneCompare`: `for i := 0; i < cmplen; i++` runs `cmplen - i` more
turns, then `slen > flen` decides between `-1` and `0`. -/
def subRuneCompareLoop (full sub : List Int) (slen flen : Nat) : Nat → Nat → Run Int
  | 0, _ => if slen > flen then .ok (-1) else .ok 0
  | n + 1, i => do
    let f ← idx full i
    let s ← idx sub i
    if f > s then .ok 1
    else if f < s then .ok (-1)
    else subRuneCompareLoop full sub slen flen n (i + 1)

/-- Source `subRuneCompare`. -/
def subRuneCompare (svc : FastMatching) (pos : Int) (sub : List Int) : Run Int :=
  if pos < 0 then .ok (-1)
  else do
    let sl ← deref svc.searchList
    if pos ≥ (sl.length : Int) then .ok 1
    else do
      let item ← index sl pos
      let full := item.key
      let slen := sub.length
      let flen := full.length
      let cmplen := if flen < slen then flen else slen
      subRuneCompareLoop full sub slen flen cmplen 0

/-- Loop `for svc.subRuneCompare(from-1, target) == 0 { from-- }` of `findMatches`. -/
def expandLeft (svc : FastMatching) (target : List Int) : Nat → Int → Run Int
  | 0, _ => .error .fuel
  | n + 1, from_ => do
    let c ← subRuneCompare svc (from_ - 1) target
    if c = 0 then expandLeft svc target n (from_ - 1) else .ok from_

/-- Loop `for svc.subRuneCompare(to+1, target) == 0 { to++ }` of `findMatches`. -/
def expandRight (svc : FastMatching) (target : List Int) : Nat → Int → Run Int
  | 0, _ => .error .fuel
  | n + 1, to_ => do
    let c ← subRuneCompare svc (to_ + 1) target
    if c = 0 then expandRight svc target n (to_ + 1) else .ok to_

/-- Loop `for i := from; i <= to; i++ { list[j] = (*svc.searchList)[i].value; j++ }`. -/
def collectLoop (svc : FastMatching) (to_ : Int) : Nat → Int → Nat → List Int → Run (List Int)
  | 0, i, _, list => if i ≤ to_ then .error .fuel else .ok list
  | n + 1, i, j, list =>
    if i ≤ to_ then do
      let sl ← deref svc.searchList
      let item ← index sl i
      let list1 ← store list j item.value
      collectLoop svc to_ n (i + 1) (j + 1) list1
    else .ok list

/-- Hit branch of `findMatches`: widen `[pos, pos]` to the run of equal positions and copy
the values out. `budget` bounds the turns of each widening loop. -/
def collectRange (svc : FastMatching) (target : List Int) (budget : Nat) (pos : Int) :
    Run (List Int) := do
  let from_ ← expandLeft svc target budget pos
  let to_ ← expandRight svc target budget pos
  if to_ - from_ + 1 < 0 then .error .makeSliceLen
  else
    let list := List.replicate (to_ - from_ + 1).toNat (0 : Int)
    collectLoop svc to_ (to_ - from_ + 1).toNat from_ 0 list

/-- Binary-search loop `for from <= to` of `findMatches`; `none` is the `nil` returned when
the loop ends without a hit. -/
def searchLoop (svc : FastMatching) (target : List Int) (budget : Nat) :
    Nat → Int → Int → Run (Option (List Int))
  | 0, from_, to_ => if from_ ≤ to_ then .error .fuel else .ok none
  | n + 1, from_, to_ =>
    if from_ ≤ to_ then do
      let pos := (from_ + to_) >>> (1 : Nat)
      let cmp ← subRuneCompare svc pos target
      if cmp = 0 then do
        let list ← collectRange svc target budget pos
        .ok (some list)
      else if cmp < 0 then searchLoop svc target budget n (pos + 1) to_
      else searchLoop svc target budget n from_ (pos - 1)
    else .ok none

/-- Source `findMatches`: the index after the call and the slice returned. The loops get
`len(*svc.searchList)` turns each, which the interval and the list length bound. -/
def findMatches (lib : GoLib) (svc : FastMatching) (target : List Int) :
    Run (FastMatching × Option (List Int)) := do
  let svc1 ← if svc.needReIndex then reindex lib svc else .ok svc
  let sl ← deref svc1.searchList
  let r ← searchLoop svc1 target sl.length sl.length 0 ((sl.length : Int) - 1)
  .ok (svc1, r)

/-- Source `RegistData`. -/
def RegistData (lib : GoLib) (svc : FastMatching) (keyword : Bytes) (value : Int) :
    Run (FastMatching × Bool) :=
  let lcstr := ToLower lib.unicodeLower keyword
  let key := lcstr
  if Valid key then do
    let (runelist, _) ← String2RuneList lcstr
    .ok ({ svc with dataList := svc.dataList ++ [{ key := runelist, value := value }],
                    needReIndex := true }, true)
  else .ok (svc, false)

/-- Source `RetrieveData`: the index after the call and the slice returned (`none` is `nil`). -/
def RetrieveData (lib : GoLib) (svc : FastMatching) (keyword : Bytes) :
    Run (FastMatching × Option (List Int)) :=
  let lcstr := ToLower lib.unicodeLower keyword
  let key := lcstr
  if Valid key then do
    let (runelist, _) ← String2RuneList lcstr
    let (svc1, result) ← findMatches lib svc runelist
    if result = none then .ok (svc1, some svc1.nullResult) else .ok (svc1, result)
  else .ok (svc, none)

/-- Source `Clear`. -/
def Clear (svc : FastMatching) : FastMatching :=
  { svc with dataList := [], needReIndex := true }

/-- Elements of a returned slice; a `nil` slice has none. -/
def elems (r : Option (List Int)) : List Int := r.getD []

/-! ## Reference functions used in the statements -/

/-- Runes of `p` in order, by repeated `DecodeRune`, at most `n` of them. -/
def decodeLoop : Nat → Bytes → List Int
  | 0, _ => []
  | n + 1, p =>
    match p with
    | [] => []
    | _ :: _ => (DecodeRune p).1 :: decodeLoop n (p.drop (DecodeRune p).2)

/-- Runes of the byte string `p`. -/
def runesOf (p : Bytes) : List Int := decodeLoop p.length p

/-- Three-way comparison of a record key with a query, as a recursion on the two lists:
`0` when the query is used up, `-1` when the key is used up first. -/
def cmpKey : List Int → List Int → Int
  | _, [] => 0
  | [], _ :: _ => -1
  | f :: fs, s :: ss => if f > s then 1 else if f < s then -1 else cmpKey fs ss

/-- Lexicographic order on keys, a proper initial segment coming first, as a recursion on
the two lists. -/
def keyLess : List Int → List Int → Bool
  | [], [] => false
  | [], _ :: _ => true
  | _ :: _, [] => false
  | x :: xs, y :: ys => if x ≠ y then decide (x < y) else keyLess xs ys

/-- Insertion sort by the order of `ByRune`: one sort meeting what `GoLib` asks of
`sort.Sort`. -/
def insertionSortByRune (l : List searchItem) : List searchItem :=
  l.insertionSort (fun a b => keyLess b.key a.key = false)

/-- Values of the records of `l` whose key starts with the query `t`, in the order of `l`. -/
def matchValues (t : List Int) (l : List searchItem) : List Int :=
  (l.filter (fun it => decide (t <+: it.key))).map (fun it => it.value)

/-- Slice `findMatches` returns when the matching values are `vals`: `nil` when there are
none. -/
def sliceOf (vals : List Int) : Option (List Int) :=
  if vals = [] then none else some vals

/-- A slice is in `ByRune` order when no later record is `Less` than an earlier one. -/
def Sorted (l : List searchItem) : Prop :=
  l.Pairwise (fun a b => keyLess b.key a.key = false)

/-- Sign profile of `subRuneCompare` over the positions: negative below `a`, zero on
`[a, a + b)`, positive from `a + b` on. -/
structure Shape (svc : FastMatching) (t : List Int) (a b : Nat) : Prop where
  neg : ∀ pos : Int, pos < a → ∃ c, subRuneCompare svc pos t = .ok c ∧ c < 0
  zero : ∀ pos : Int, (a : Int) ≤ pos → pos < a + b → subRuneCompare svc pos t = .ok 0
  pos : ∀ pos : Int, (a : Int) + b ≤ pos → ∃ c, subRuneCompare svc pos t = .ok c ∧ 0 < c

/-- Search list a rebuild makes of the entry store `dl`. -/
def rebuiltList (lib : GoLib) (dl : List searchItem) : List searchItem :=
  lib.sort (dl.flatMap suffixItems)

/-- Index after a query: search list rebuilt from the entry store, flag down. -/
def rebuilt (lib : GoLib) (svc : FastMatching) : FastMatching :=
  { svc with searchList := some (rebuiltList lib svc.dataList), needReIndex := false }

/-- What holds of every index the public calls can produce: `nullResult` is the empty
slice, and a lowered flag means the search list is the rebuild of the entry store. -/
def Inv (lib : GoLib) (svc : FastMatching) : Prop :=
  svc.nullResult = [] ∧
    (svc.needReIndex = false → svc.searchList = some (rebuiltList lib svc.dataList))

/-- Normal form `RegistData` and `RetrieveData` compute for a string: lowercase, check the
encoding, decode into runes; `none` when the check fails. -/
def normalized (lib : GoLib) (text : Bytes) : Option (List Int) :=
  if Valid (ToLower lib.unicodeLower text) then some (runesOf (ToLower lib.unicodeLower text))
  else none

/-- Index after a successful registration of the entry `(key, value)`. -/
def withEntry (svc : FastMatching) (key : List Int) (value : Int) : FastMatching :=
  { svc with dataList := svc.dataList ++ [{ key := key, value := value }], needReIndex := true }

/-! ## Sequences of public calls -/

/-- One call of the public interface `IFastMatching`. -/
inductive Call where
  | RegistData (keyword : Bytes) (value : Int)
  | RetrieveData (keyword : Bytes)
  | Clear
  deriving DecidableEq, Repr

/-- Index after one public call. -/
def call (lib : GoLib) (svc : FastMatching) : Call → Run FastMatching
  | .RegistData keyword value => do
    let (svc1, _) ← RegistData lib svc keyword value
    .ok svc1
  | .RetrieveData keyword => do
    let (svc1, _) ← RetrieveData lib svc keyword
    .ok svc1
  | .Clear => .ok (Clear svc)

/-- Index after a sequence of public calls, starting from `svc`. -/
def runCalls (lib : GoLib) : FastMatching → List Call → Run FastMatching
  | svc, [] => .ok svc
  | svc, c :: cs => do
    let svc1 ← call lib svc c
    runCalls lib svc1 cs

/-- Entries that count as registered after a sequence of calls that began with the entries
`acc`: each registration of a well-formed key adds its entry at the end, a `Clear` drops
them all, a query changes nothing. -/
def liveEntries (lib : GoLib) (acc : List searchItem) : List Call → List searchItem
  | [] => acc
  | .RegistData keyword value :: cs =>
    match normalized lib keyword with
    | some key => liveEntries lib (acc ++ [{ key := key, value := value }]) cs
    | none => liveEntries lib acc cs
  | .RetrieveData _ :: cs => liveEntries lib acc cs
  | .Clear :: cs => liveEntries lib [] cs

/-! ## String constants -/

/-- UTF-8 bytes of one code point, as the compiler lays out a string constant. -/
def encodeChar (c : Nat) : Bytes :=
  if c < 0x80 then [c]
  else if c < 0x800 then [0xC0 + c / 64, 0x80 + c % 64]
  else if c < 0x10000 then [0xE0 + c / 4096, 0x80 + c / 64 % 64, 0x80 + c % 64]
  else [0xF0 + c / 262144, 0x80 + c / 4096 % 64, 0x80 + c / 64 % 64, 0x80 + c % 64]

/-- Bytes of a string constant. -/
def str (s : String) : Bytes := s.toList.flatMap (fun c => encodeChar c.toNat)

/-! ## Go standard library: `strings.Map`, the Unicode branch of `strings.ToLower` -/

/-- Library `utf8.AppendRune`, which `strings.Builder.WriteRune` writes with: the UTF-8 bytes
of the rune `r`; a rune that is negative, above U+10FFFF or a surrogate is written as
U+FFFD. -/
def EncodeRune (r : Int) : Bytes :=
  if r < 0 ∨ 0x10FFFF < r ∨ (0xD800 ≤ r ∧ r ≤ 0xDFFF) then [0xEF, 0xBF, 0xBD]
  else encodeChar r.toNat

/-- Loop of `strings.Map`, at most `n` runes: each rune of the string, a byte that is not
part of a well-formed encoding counting as U+FFFD, is sent through `mapping` and written
out again, unless `mapping` makes it negative, which drops it. -/
def MapLoop (mapping : Int → Int) : Nat → Bytes → Bytes
  | 0, _ => []
  | n + 1, p =>
    match p with
    | [] => []
    | _ :: _ =>
      (if 0 ≤ mapping (DecodeRune p).1 then EncodeRune (mapping (DecodeRune p).1) else [])
        ++ MapLoop mapping n (p.drop (DecodeRune p).2)

/-- Library `strings.Map`. For a string that is not all ASCII, `strings.ToLower(s)` is
`strings.Map(unicode.ToLower, s)`. -/
def Map (mapping : Int → Int) (s : Bytes) : Bytes := MapLoop mapping s.length s

/-- A case table to run `strings.Map` with: it lowers `A`..`Z` and leaves every other rune
alone. At U+FFFD it agrees with `unicode.ToLower`. -/
def lowerRuneASCII (r : Int) : Int :=
  if 65 ≤ r ∧ r ≤ 90 then r + 32 else r

/-- A sample run: a registration, a query, a `Clear`, then an empty key and `Banana`. -/
def demoCalls : List Call :=
  [.RegistData (str "Apple") 10, .RetrieveData (str "pp"), .Clear, .RegistData (str "") 7,
    .RegistData (str "Banana") 3]

/-! ## Reference functions for the records, the order and the occurrences -/

/-- Suffix records the specification gives an entry: `(key[i:], value)` for every `i` with
`0 ≤ i < len(key)`. -/
def suffixRecords (e : searchItem) : List searchItem :=
  (List.range e.key.length).map (fun i => { key := e.key.drop i, value := e.value })

/-- Records of an entry in the search list, told from the entry: its suffix records, and for
an entry with an empty key the entry itself. -/
def recordsOf (e : searchItem) : List searchItem :=
  if e.key = [] then [e] else suffixRecords e

/-- Order of the specification, in its words: at the first position where the keys differ
the smaller code point decides, and a key that is a proper initial part of the other comes
first. -/
def specLess (a b : List Int) : Prop :=
  (∃ p x r y s, a = p ++ x :: r ∧ b = p ++ y :: s ∧ x < y) ∨ (∃ s, s ≠ [] ∧ b = a ++ s)

/-- Linear scan of the specification: go through the records in order and keep the value of
each record whose key starts with the query `t`. -/
def linearScan (t : List Int) : List searchItem → List Int
  | [] => []
  | it :: rest => if t <+: it.key then it.value :: linearScan t rest else linearScan t rest

/-- Positions of `key` at which the query `t` occurs. -/
def occurrences (t key : List Int) : List Nat :=
  (List.range key.length).filter (fun i => decide (t <+: key.drop i))

/-- An index whose search list is not in order, with the flag down. -/
def unsortedIndex : FastMatching :=
  { dataList := [],
    searchList := some [{ key := [2], value := 1 }, { key := [1], value := 2 },
      { key := [2, 3], value := 3 }],
    needReIndex := false,
    nullResult := [] }

/-! ## Running the loops -/

@[simp] theorem ok_bind {α β : Type} (a : α) (f : α → Run β) :
    ((Except.ok a : Run α) >>= f) = f a := rfl

@[simp] theorem error_bind {α β : Type} (e : Err) (f : α → Run β) :
    ((Except.error e : Run α) >>= f) = Except.error e := rfl

@[simp] theorem idx_cons_zero {α : Type} (a : α) (l : List α) : idx (a :: l) 0 = .ok a := by
  simp [idx]

@[simp] theorem idx_cons_succ {α : Type} (a : α) (l : List α) (i : Nat) :
    idx (a :: l) (i + 1) = idx l i := by
  simp [idx]

theorem idx_eq_ok {α : Type} (l : List α) (i : Nat) (h : i < l.length) :
    idx l i = .ok (l.get ⟨i, h⟩) := by
  simp [idx, List.getElem?_eq_getElem h]

theorem index_ofNat {α : Type} (l : List α) (i : Nat) : index l (i : Int) = idx l i := by
  simp [index]

theorem DecodeRune_width_pos (b : Nat) (r : Bytes) : 1 ≤ (DecodeRune (b :: r)).2 := by
  simp only [DecodeRune]
  repeat' split
  all_goals simp

theorem String2RuneListLoop_eq (fuel : Nat) :
    ∀ (buf : Bytes) (done : List Int), buf.length ≤ fuel →
      String2RuneListLoop fuel buf done.length
          (done ++ List.replicate (RuneCountLoop fuel buf) 0)
        = .ok (done ++ decodeLoop fuel buf) := by
  induction fuel with
  | zero =>
    intro buf done h
    have hb : buf = [] := List.length_eq_zero.mp (Nat.le_zero.mp h)
    subst hb
    simp [String2RuneListLoop, RuneCountLoop, decodeLoop]
  | succ n ih =>
    intro buf done h
    cases buf with
    | nil => simp [String2RuneListLoop, RuneCountLoop, decodeLoop]
    | cons b r =>
      have hw := DecodeRune_width_pos b r
      have hlen : ((b :: r).drop (DecodeRune (b :: r)).2).length ≤ n := by
        simp only [List.length_drop, List.length_cons] at h ⊢
        omega
      have hstore : store (done ++ List.replicate
            (RuneCountLoop n ((b :: r).drop (DecodeRune (b :: r)).2) + 1) 0) done.length
            (DecodeRune (b :: r)).1
          = .ok ((done ++ [(DecodeRune (b :: r)).1]) ++ List.replicate
            (RuneCountLoop n ((b :: r).drop (DecodeRune (b :: r)).2)) 0) := by
        simp [store, List.replicate_succ]
      have hrec := ih ((b :: r).drop (DecodeRune (b :: r)).2)
        (done ++ [(DecodeRune (b :: r)).1]) hlen
      simp only [List.length_append, List.length_singleton] at hrec
      simp only [String2RuneListLoop, RuneCountLoop, decodeLoop, List.length_cons,
        Nat.zero_lt_succ, if_true, hstore, hrec]
      simp

/-- `String2RuneList` always returns: the runes of the string and `utf8.RuneCount` of it. -/
theorem String2RuneList_eq (str : Bytes) :
    String2RuneList str = .ok (runesOf str, RuneCount str) := by
  have h := String2RuneListLoop_eq str.length str [] (Nat.le_refl _)
  simp only [List.length_nil, List.nil_append] at h
  simp [String2RuneList, RuneCount, runesOf, h]

theorem subRuneCompareLoop_shift (f s : Int) (full sub : List Int) (slen flen n : Nat) :
    ∀ i, subRuneCompareLoop (f :: full) (s :: sub) slen flen n (i + 1)
      = subRuneCompareLoop full sub slen flen n i := by
  induction n with
  | zero => intro i; simp [subRuneCompareLoop]
  | succ n ih => intro i; simp [subRuneCompareLoop, ih]

theorem subRuneCompareLoop_eq :
    ∀ (full sub : List Int) (slen flen : Nat), (slen > flen ↔ sub.length > full.length) →
      subRuneCompareLoop full sub slen flen
          (if full.length < sub.length then full.length else sub.length) 0
        = .ok (cmpKey full sub) := by
  intro full
  induction full with
  | nil =>
    intro sub slen flen h
    cases sub with
    | nil => simp [subRuneCompareLoop, cmpKey] at h ⊢; omega
    | cons s ss => simp [subRuneCompareLoop, cmpKey] at h ⊢; omega
  | cons f fs ih =>
    intro sub slen flen h
    cases sub with
    | nil => simp [subRuneCompareLoop, cmpKey] at h ⊢; omega
    | cons s ss =>
      have h1 : (slen > flen ↔ ss.length > fs.length) := by
        simp only [List.length_cons] at h; omega
      have hrec := ih ss slen flen h1
      have hn : (if (f :: fs).length < (s :: ss).length then (f :: fs).length
            else (s :: ss).length)
          = (if fs.length < ss.length then fs.length else ss.length) + 1 := by
        simp only [List.length_cons]; split <;> split <;> omega
      rw [hn]
      simp only [subRuneCompareLoop, idx_cons_zero, ok_bind, subRuneCompareLoop_shift, hrec,
        cmpKey]
      split
      · rfl
      · split <;> rfl

theorem LessLoop_shift (x y : Int) (ki kj : List Int) (len1 len2 n : Nat) :
    ∀ k, ByRune.LessLoop (x :: ki) (y :: kj) len1 len2 n (k + 1)
      = ByRune.LessLoop ki kj len1 len2 n k := by
  induction n with
  | zero => intro k; simp [ByRune.LessLoop]
  | succ n ih => intro k; simp [ByRune.LessLoop, ih]

theorem LessLoop_eq :
    ∀ (ki kj : List Int) (len1 len2 : Nat), (len1 < len2 ↔ ki.length < kj.length) →
      ByRune.LessLoop ki kj len1 len2
          (if ki.length > kj.length then kj.length else ki.length) 0
        = .ok (keyLess ki kj) := by
  intro ki
  induction ki with
  | nil =>
    intro kj len1 len2 h
    cases kj with
    | nil => simp [ByRune.LessLoop, keyLess] at h ⊢; omega
    | cons y ys => simp [ByRune.LessLoop, keyLess] at h ⊢; omega
  | cons x xs ih =>
    intro kj len1 len2 h
    cases kj with
    | nil => simp [ByRune.LessLoop, keyLess] at h ⊢; omega
    | cons y ys =>
      have h1 : (len1 < len2 ↔ xs.length < ys.length) := by
        simp only [List.length_cons] at h; omega
      have hrec := ih ys len1 len2 h1
      have hn : (if (x :: xs).length > (y :: ys).length then (y :: ys).length
            else (x :: xs).length)
          = (if xs.length > ys.length then ys.length else xs.length) + 1 := by
        simp only [List.length_cons]; split <;> split <;> omega
      rw [hn]
      simp only [ByRune.LessLoop, idx_cons_zero, ok_bind, LessLoop_shift, hrec, keyLess]
      split <;> rfl

/-- The comparison of `ByRune.Less` always returns, and is the lexicographic order. -/
theorem LessKeys_eq (ki kj : List Int) : ByRune.LessKeys ki kj = .ok (keyLess ki kj) := by
  simp only [ByRune.LessKeys]
  exact LessLoop_eq ki kj ki.length kj.length Iff.rfl

theorem Less_eq (a : List searchItem) (i j : Nat) (hi : i < a.length) (hj : j < a.length) :
    ByRune.Less a i j = .ok (keyLess (a.get ⟨i, hi⟩).key (a.get ⟨j, hj⟩).key) := by
  simp [ByRune.Less, idx_eq_ok a i hi, idx_eq_ok a j hj, LessKeys_eq]

/-! ## The order of keys and the three-way comparison -/

theorem cmpKey_eq_zero_iff : ∀ (full sub : List Int), cmpKey full sub = 0 ↔ sub <+: full := by
  intro full
  induction full with
  | nil =>
    intro sub
    cases sub with
    | nil => simp [cmpKey]
    | cons s ss => simp [cmpKey]
  | cons f fs ih =>
    intro sub
    cases sub with
    | nil => simp [cmpKey]
    | cons s ss =>
      simp only [cmpKey, List.cons_prefix_cons]
      by_cases h1 : f > s
      · simp only [h1, if_true]
        constructor
        · intro h; omega
        · intro h; omega
      · by_cases h2 : f < s
        · simp only [h1, h2, if_true, if_false]
          constructor
          · intro h; omega
          · intro h; omega
        · have heq : s = f := by omega
          subst heq
          simp [ih ss]

theorem cmpKey_ge (full sub : List Int) : -1 ≤ cmpKey full sub := by
  induction full generalizing sub with
  | nil => cases sub <;> simp [cmpKey]
  | cons f fs ih =>
    cases sub with
    | nil => simp [cmpKey]
    | cons s ss =>
      simp only [cmpKey]
      split
      · omega
      · split
        · omega
        · exact ih ss

theorem cmpKey_le (full sub : List Int) : cmpKey full sub ≤ 1 := by
  induction full generalizing sub with
  | nil => cases sub <;> simp [cmpKey]
  | cons f fs ih =>
    cases sub with
    | nil => simp [cmpKey]
    | cons s ss =>
      simp only [cmpKey]
      split
      · omega
      · split
        · omega
        · exact ih ss

/-- The comparison with a query is monotone along the order of keys. -/
theorem cmpKey_mono : ∀ (a b t : List Int), keyLess b a = false → cmpKey a t ≤ cmpKey b t := by
  intro a
  induction a with
  | nil =>
    intro b t _
    cases t with
    | nil => simp [cmpKey]
    | cons s ss => simpa [cmpKey] using cmpKey_ge b (s :: ss)
  | cons x xs ih =>
    intro b t h
    cases t with
    | nil => simp [cmpKey]
    | cons s ss =>
      cases b with
      | nil => simp [keyLess] at h
      | cons y ys =>
        simp only [keyLess] at h
        simp only [cmpKey]
        by_cases hxy : y = x
        · subst hxy
          simp only [ne_eq, not_true_eq_false, if_false] at h
          split
          · omega
          · split
            · omega
            · exact ih ys ss h
        · have hlt : x < y := by
            simp only [ne_eq, hxy, not_false_eq_true, if_true, decide_eq_false_iff_not] at h
            omega
          have hge := cmpKey_ge ys ss
          have hle := cmpKey_le xs ss
          split <;> split <;> (try split) <;> (try split) <;> omega

theorem keyLess_total : ∀ (a b : List Int), keyLess b a = false ∨ keyLess a b = false := by
  intro a
  induction a with
  | nil => intro b; cases b <;> simp [keyLess]
  | cons x xs ih =>
    intro b
    cases b with
    | nil => simp [keyLess]
    | cons y ys =>
      simp only [keyLess]
      by_cases hxy : x = y
      · subst hxy
        simpa using ih ys
      · have hyx : ¬ y = x := fun h => hxy h.symm
        simp only [ne_eq, hxy, hyx, not_false_eq_true, if_true, decide_eq_false_iff_not]
        omega

theorem keyLess_trans : ∀ (a b c : List Int),
    keyLess b a = false → keyLess c b = false → keyLess c a = false := by
  intro a
  induction a with
  | nil => intro b c _ _; cases c <;> simp [keyLess]
  | cons x xs ih =>
    intro b c h1 h2
    cases b with
    | nil => simp [keyLess] at h1
    | cons y ys =>
      cases c with
      | nil => simp [keyLess] at h2
      | cons z zs =>
        simp only [keyLess] at h1 h2 ⊢
        by_cases hyx : y = x
        · subst hyx
          simp only [ne_eq, not_true_eq_false, if_false] at h1
          by_cases hzy : z = y
          · subst hzy
            simp only [ne_eq, not_true_eq_false, if_false] at h2 ⊢
            exact ih ys zs h1 h2
          · simpa [hzy] using h2
        · simp only [ne_eq, hyx, not_false_eq_true, if_true, decide_eq_false_iff_not] at h1
          by_cases hzy : z = y
          · subst hzy
            simp only [ne_eq, hyx, not_false_eq_true, if_true, decide_eq_false_iff_not]
            exact h1
          · simp only [ne_eq, hzy, not_false_eq_true, if_true, decide_eq_false_iff_not] at h2
            have hzx : ¬ z = x := by omega
            simp only [ne_eq, hzx, not_false_eq_true, if_true, decide_eq_false_iff_not]
            omega

theorem sort_Sorted (lib : GoLib) (l : List searchItem) : Sorted (lib.sort l) := by
  unfold Sorted
  rw [List.pairwise_iff_getElem]
  intro i j hi hj hij
  have h := lib.sort_sorted l i j hij hj
  rw [Less_eq (lib.sort l) j i hj hi] at h
  simpa using h

/-- A sorted slice splits into the records below the query, the records the query is an
initial segment of, and the records above it. -/
theorem Sorted_split (t : List Int) : ∀ (l : List searchItem), Sorted l →
    ∃ A B C, l = A ++ B ++ C ∧ (∀ x ∈ A, cmpKey x.key t < 0) ∧
      (∀ x ∈ B, cmpKey x.key t = 0) ∧ (∀ x ∈ C, 0 < cmpKey x.key t) := by
  intro l
  induction l with
  | nil => intro _; exact ⟨[], [], [], rfl, by simp, by simp, by simp⟩
  | cons x xs ih =>
    intro h
    have hx : ∀ y ∈ xs, cmpKey x.key t ≤ cmpKey y.key t := fun y hy =>
      cmpKey_mono x.key y.key t (List.rel_of_pairwise_cons h hy)
    obtain ⟨A, B, C, hl, hA, hB, hC⟩ := ih (List.Pairwise.of_cons h)
    rcases lt_trichotomy (cmpKey x.key t) 0 with hlt | heq | hgt
    · refine ⟨x :: A, B, C, by simp [hl], ?_, hB, hC⟩
      intro y hy
      rcases List.mem_cons.mp hy with rfl | hy
      · exact hlt
      · exact hA y hy
    · have hAnil : A = [] := by
        cases A with
        | nil => rfl
        | cons y ys =>
          have h1 := hA y (List.mem_cons_self _ _)
          have h2 := hx y (by simp [hl])
          omega
      subst hAnil
      refine ⟨[], x :: B, C, by simp [hl], by simp, ?_, hC⟩
      intro y hy
      rcases List.mem_cons.mp hy with rfl | hy
      · exact heq
      · exact hB y hy
    · have hAnil : A = [] := by
        cases A with
        | nil => rfl
        | cons y ys =>
          have h1 := hA y (List.mem_cons_self _ _)
          have h2 := hx y (by simp [hl])
          omega
      have hBnil : B = [] := by
        cases B with
        | nil => rfl
        | cons y ys =>
          have h1 := hB y (List.mem_cons_self _ _)
          have h2 := hx y (by simp [hl])
          omega
      subst hAnil hBnil
      refine ⟨[], [], x :: C, by simp [hl], by simp, by simp, ?_⟩
      intro y hy
      rcases List.mem_cons.mp hy with rfl | hy
      · exact hgt
      · exact hC y hy

/-! ## The query loops over a sorted search list -/

theorem subRuneCompare_neg (svc : FastMatching) (t : List Int) (pos : Int) (h : pos < 0) :
    subRuneCompare svc pos t = .ok (-1) := by
  simp [subRuneCompare, h]

theorem subRuneCompare_at (svc : FastMatching) (t : List Int) (l : List searchItem)
    (hl : svc.searchList = some l) (k : Nat) (hk : k < l.length) :
    subRuneCompare svc (k : Int) t = .ok (cmpKey (l.get ⟨k, hk⟩).key t) := by
  have h0 : ¬ ((k : Int) < 0) := by omega
  have h1 : ¬ ((k : Int) ≥ (l.length : Int)) := by omega
  simp only [subRuneCompare, h0, if_false, hl, deref, ok_bind, h1, index_ofNat,
    idx_eq_ok l k hk]
  exact subRuneCompareLoop_eq _ t t.length _ Iff.rfl

theorem subRuneCompare_ge (svc : FastMatching) (t : List Int) (l : List searchItem)
    (hl : svc.searchList = some l) (pos : Int) (h : (l.length : Int) ≤ pos) :
    subRuneCompare svc pos t = .ok 1 := by
  have h0 : ¬ (pos < 0) := by omega
  simp [subRuneCompare, h0, hl, deref, h]

theorem Shape_of_split (svc : FastMatching) (t : List Int) (A B C : List searchItem)
    (hl : svc.searchList = some (A ++ B ++ C))
    (hA : ∀ x ∈ A, cmpKey x.key t < 0) (hB : ∀ x ∈ B, cmpKey x.key t = 0)
    (hC : ∀ x ∈ C, 0 < cmpKey x.key t) : Shape svc t A.length B.length := by
  have hlen : (A ++ B ++ C).length = A.length + B.length + C.length := by
    simp [Nat.add_assoc]
  have hat : ∀ (k : Nat) (hk : k < (A ++ B ++ C).length),
      subRuneCompare svc (k : Int) t = .ok (cmpKey ((A ++ B ++ C).get ⟨k, hk⟩).key t) :=
    fun k hk => subRuneCompare_at svc t _ hl k hk
  refine ⟨?_, ?_, ?_⟩
  · intro pos hp
    by_cases hneg : pos < 0
    · exact ⟨-1, subRuneCompare_neg svc t pos hneg, by omega⟩
    · obtain ⟨k, rfl⟩ := Int.eq_ofNat_of_zero_le (by omega : 0 ≤ pos)
      have hkA : k < A.length := by omega
      have hk : k < (A ++ B ++ C).length := by omega
      refine ⟨_, hat k hk, ?_⟩
      have hget : (A ++ B ++ C).get ⟨k, hk⟩ = A.get ⟨k, hkA⟩ := by
        have hk1 : k < (A ++ B).length := by simp; omega
        simp only [List.get_eq_getElem]
        rw [List.getElem_append_left hk1, List.getElem_append_left hkA]
      rw [hget]
      exact hA _ (List.get_mem _ _ _)
  · intro pos h1 h2
    obtain ⟨k, rfl⟩ := Int.eq_ofNat_of_zero_le (by omega : 0 ≤ pos)
    have hkB : k - A.length < B.length := by omega
    have hk : k < (A ++ B ++ C).length := by omega
    rw [hat k hk]
    have hget : (A ++ B ++ C).get ⟨k, hk⟩ = B.get ⟨k - A.length, hkB⟩ := by
      have hk1 : k < (A ++ B).length := by simp; omega
      have hk2 : A.length ≤ k := by omega
      simp only [List.get_eq_getElem]
      rw [List.getElem_append_left hk1, List.getElem_append_right hk2]
    rw [hget, hB _ (List.get_mem _ _ _)]
  · intro pos hp
    by_cases hge : ((A ++ B ++ C).length : Int) ≤ pos
    · exact ⟨1, subRuneCompare_ge svc t _ hl pos hge, by omega⟩
    · obtain ⟨k, rfl⟩ := Int.eq_ofNat_of_zero_le (by omega : 0 ≤ pos)
      have hk : k < (A ++ B ++ C).length := by omega
      have hkC : k - (A ++ B).length < C.length := by simp; omega
      refine ⟨_, hat k hk, ?_⟩
      have hget : (A ++ B ++ C).get ⟨k, hk⟩ = C.get ⟨k - (A ++ B).length, hkC⟩ := by
        have hk1 : (A ++ B).length ≤ k := by simp; omega
        simp only [List.get_eq_getElem]
        rw [List.getElem_append_right hk1]
      rw [hget]
      exact hC _ (List.get_mem _ _ _)

theorem expandLeft_eq (svc : FastMatching) (t : List Int) (a b : Nat) (hS : Shape svc t a b) :
    ∀ (fuel : Nat) (pos : Int), (a : Int) ≤ pos → pos < a + b → pos - a + 1 ≤ fuel →
      expandLeft svc t fuel pos = .ok (a : Int) := by
  intro fuel
  induction fuel with
  | zero => intro pos h1 _ h3; omega
  | succ n ih =>
    intro pos h1 h2 h3
    by_cases hp : (a : Int) ≤ pos - 1
    · have hz := hS.zero (pos - 1) hp (by omega)
      simp only [expandLeft, hz, ok_bind, if_true]
      exact ih (pos - 1) hp (by omega) (by omega)
    · obtain ⟨c, hc, hneg⟩ := hS.neg (pos - 1) (by omega)
      have hc0 : ¬ c = 0 := by omega
      simp only [expandLeft, hc, ok_bind, hc0, if_false]
      congr 1
      omega

theorem expandRight_eq (svc : FastMatching) (t : List Int) (a b : Nat) (hS : Shape svc t a b) :
    ∀ (fuel : Nat) (pos : Int), (a : Int) ≤ pos → pos < a + b → (a : Int) + b - pos ≤ fuel →
      expandRight svc t fuel pos = .ok ((a : Int) + b - 1) := by
  intro fuel
  induction fuel with
  | zero => intro pos _ h2 h3; omega
  | succ n ih =>
    intro pos h1 h2 h3
    by_cases hp : pos + 1 < (a : Int) + b
    · have hz := hS.zero (pos + 1) (by omega) hp
      simp only [expandRight, hz, ok_bind, if_true]
      exact ih (pos + 1) (by omega) hp (by omega)
    · obtain ⟨c, hc, hpos⟩ := hS.pos (pos + 1) (by omega)
      have hc0 : ¬ c = 0 := by omega
      simp only [expandRight, hc, ok_bind, hc0, if_false]
      congr 1
      omega

theorem collectLoop_eq (svc : FastMatching) (l : List searchItem)
    (hl : svc.searchList = some l) :
    ∀ (n k : Nat) (done : List Int), k + n ≤ l.length →
      collectLoop svc ((k : Int) + n - 1) n (k : Int) done.length
          (done ++ List.replicate n 0)
        = .ok (done ++ ((l.drop k).take n).map (fun it => it.value)) := by
  intro n
  induction n with
  | zero =>
    intro k done _
    have h : ¬ ((k : Int) ≤ (k : Int) + (0 : Nat) - 1) := by omega
    simp [collectLoop, h]
  | succ n ih =>
    intro k done hk
    have hkl : k < l.length := by omega
    have h : (k : Int) ≤ (k : Int) + ((n + 1 : Nat) : Int) - 1 := by omega
    have hto : (k : Int) + ((n + 1 : Nat) : Int) - 1 = ((k + 1 : Nat) : Int) + (n : Int) - 1 := by
      omega
    have hstore : store (done ++ List.replicate (n + 1) (0 : Int)) done.length
          (l.get ⟨k, hkl⟩).value
        = .ok ((done ++ [(l.get ⟨k, hkl⟩).value]) ++ List.replicate n 0) := by
      simp [store, List.replicate_succ]
    have hrec := ih (k + 1) (done ++ [(l.get ⟨k, hkl⟩).value]) (by omega)
    simp only [List.length_append, List.length_singleton] at hrec
    have hdrop : l.drop k = l.get ⟨k, hkl⟩ :: l.drop (k + 1) := by
      rw [List.get_eq_getElem]
      exact List.drop_eq_getElem_cons hkl
    simp only [collectLoop, h, if_true, hl, deref, ok_bind, index_ofNat, idx_eq_ok l k hkl,
      hstore]
    rw [hto]
    have hk1 : (k : Int) + 1 = ((k + 1 : Nat) : Int) := by omega
    rw [hk1, hrec, hdrop]
    simp only [List.take_succ_cons, List.map_cons, List.append_assoc, List.singleton_append]

theorem matchValues_split (t : List Int) (A B C : List searchItem)
    (hA : ∀ x ∈ A, cmpKey x.key t < 0) (hB : ∀ x ∈ B, cmpKey x.key t = 0)
    (hC : ∀ x ∈ C, 0 < cmpKey x.key t) :
    matchValues t (A ++ B ++ C) = B.map (fun it => it.value) := by
  have h1 : A.filter (fun it => decide (t <+: it.key)) = [] := by
    rw [List.filter_eq_nil_iff]
    intro x hx
    have := hA x hx
    have hne : ¬ cmpKey x.key t = 0 := by omega
    simpa [cmpKey_eq_zero_iff] using hne
  have h2 : B.filter (fun it => decide (t <+: it.key)) = B := by
    rw [List.filter_eq_self]
    intro x hx
    simpa [cmpKey_eq_zero_iff] using hB x hx
  have h3 : C.filter (fun it => decide (t <+: it.key)) = [] := by
    rw [List.filter_eq_nil_iff]
    intro x hx
    have := hC x hx
    have hne : ¬ cmpKey x.key t = 0 := by omega
    simpa [cmpKey_eq_zero_iff] using hne
  simp [matchValues, List.filter_append, h1, h2, h3]

theorem collectRange_eq (svc : FastMatching) (t : List Int) (A B C : List searchItem)
    (hl : svc.searchList = some (A ++ B ++ C)) (hS : Shape svc t A.length B.length)
    (budget : Nat) (hb : (A ++ B ++ C).length ≤ budget) (pos : Int)
    (h1 : (A.length : Int) ≤ pos) (h2 : pos < A.length + B.length) :
    collectRange svc t budget pos = .ok (B.map (fun it => it.value)) := by
  have hlen : (A ++ B ++ C).length = A.length + B.length + C.length := by
    simp [Nat.add_assoc]
  have hL := expandLeft_eq svc t _ _ hS budget pos h1 h2 (by omega)
  have hR := expandRight_eq svc t _ _ hS budget pos h1 h2 (by omega)
  have hsz : (A.length : Int) + B.length - 1 - A.length + 1 = (B.length : Int) := by omega
  have hnn : ¬ ((B.length : Int) < 0) := by omega
  have hloop := collectLoop_eq svc _ hl B.length A.length [] (by omega)
  simp only [List.length_nil, List.nil_append] at hloop
  have htake : List.take B.length (List.drop A.length (A ++ B ++ C)) = B := by
    simp [List.append_assoc]
  simp only [collectRange, hL, hR, ok_bind, hsz, hnn, if_false, Int.toNat_ofNat, hloop, htake]

theorem searchLoop_eq (svc : FastMatching) (t : List Int) (a b : Nat) (hS : Shape svc t a b)
    (budget : Nat) (vals : List Int)
    (hhit : ∀ pos : Int, (a : Int) ≤ pos → pos < a + b →
      collectRange svc t budget pos = .ok vals) :
    ∀ (fuel : Nat) (from_ to_ : Int), 0 ≤ from_ → from_ ≤ a → (a : Int) + b - 1 ≤ to_ →
      to_ - from_ + 1 ≤ fuel →
      searchLoop svc t budget fuel from_ to_ = .ok (if b = 0 then none else some vals) := by
  intro fuel
  induction fuel with
  | zero =>
    intro from_ to_ _ h1 h2 h3
    have hlt : ¬ (from_ ≤ to_) := by omega
    have hb : b = 0 := by omega
    simp [searchLoop, hlt, hb]
  | succ n ih =>
    intro from_ to_ h0 h1 h2 h3
    by_cases hle : from_ ≤ to_
    · have hpos : (from_ + to_) >>> (1 : Nat) = (from_ + to_) / 2 := by
        rw [Int.shiftRight_eq_div_pow]; rfl
      simp only [searchLoop, hle, if_true, hpos]
      rcases lt_or_le ((from_ + to_) / 2) (a : Int) with hlt | hmid
      · obtain ⟨c, hc, hneg⟩ := hS.neg _ hlt
        have hc0 : ¬ c = 0 := by omega
        simp only [hc, ok_bind, hc0, if_false, hneg, if_true]
        exact ih _ _ (by omega) (by omega) h2 (by omega)
      · have hmid1 : (a : Int) ≤ (from_ + to_) / 2 := by omega
        by_cases hin : (from_ + to_) / 2 < (a : Int) + b
        · have hz := hS.zero ((from_ + to_) / 2) hmid1 hin
          have hb : ¬ b = 0 := by omega
          simp only [hz, ok_bind, if_true, hhit _ hmid1 hin, hb, if_false]
        · obtain ⟨c, hc, hgt⟩ := hS.pos ((from_ + to_) / 2) (by omega)
          have hc0 : ¬ c = 0 := by omega
          have hc1 : ¬ c < 0 := by omega
          simp only [hc, ok_bind, hc0, hc1, if_false]
          exact ih _ _ h0 h1 (by omega) (by omega)
    · have hb : b = 0 := by omega
      simp [searchLoop, hle, hb]

theorem searchLoop_sorted (svc : FastMatching) (t : List Int) (l : List searchItem)
    (hl : svc.searchList = some l) (hs : Sorted l) :
    searchLoop svc t l.length l.length 0 ((l.length : Int) - 1)
      = .ok (sliceOf (matchValues t l)) := by
  obtain ⟨A, B, C, hABC, hA, hB, hC⟩ := Sorted_split t l hs
  subst hABC
  have hS := Shape_of_split svc t A B C hl hA hB hC
  have hlen : (A ++ B ++ C).length = A.length + B.length + C.length := by
    simp [Nat.add_assoc]
  have h := searchLoop_eq svc t A.length B.length hS (A ++ B ++ C).length
    (B.map (fun it => it.value))
    (fun pos h1 h2 => collectRange_eq svc t A B C hl hS _ (Nat.le_refl _) pos h1 h2)
    (A ++ B ++ C).length 0 (((A ++ B ++ C).length : Int) - 1)
    (by omega) (by omega) (by omega) (by omega)
  rw [h, matchValues_split t A B C hA hB hC]
  cases B <;> simp [sliceOf]

theorem reindex_eq (lib : GoLib) (svc : FastMatching) (h : svc.needReIndex = true) :
    reindex lib svc = .ok (rebuilt lib svc) := by
  simp [reindex, h, deref, rebuilt, rebuiltList]

theorem rebuilt_eq_self (lib : GoLib) (svc : FastMatching) (hI : Inv lib svc)
    (h : svc.needReIndex = false) : rebuilt lib svc = svc := by
  cases svc with
  | mk dl sl nr nu =>
    simp only [rebuilt]
    simp only at h
    have := hI.2 h
    simp only at this
    simp [this, h]

/-- On an index the public calls can produce, `findMatches` returns, leaves the index rebuilt,
and yields the values of the records whose key starts with the target (`nil` if none). -/
theorem findMatches_eq (lib : GoLib) (svc : FastMatching) (hI : Inv lib svc) (t : List Int) :
    findMatches lib svc t
      = .ok (rebuilt lib svc, sliceOf (matchValues t (rebuiltList lib svc.dataList))) := by
  have hloop := searchLoop_sorted (rebuilt lib svc) t (rebuiltList lib svc.dataList) rfl
    (sort_Sorted lib _)
  cases hn : svc.needReIndex with
  | true =>
    simp only [findMatches, hn, if_true, reindex_eq lib svc hn, ok_bind]
    simp only [rebuilt, deref, ok_bind] at hloop ⊢
    rw [hloop]
    rfl
  | false =>
    have hself := rebuilt_eq_self lib svc hI hn
    rw [hself] at hloop
    simp only [findMatches, hn, Bool.false_eq_true, if_false, ok_bind, hI.2 hn, deref, hloop,
      hself]

theorem RetrieveData_eq (lib : GoLib) (svc : FastMatching) (hI : Inv lib svc) (q : Bytes)
    (t : List Int) (hq : normalized lib q = some t) :
    RetrieveData lib svc q
      = .ok (rebuilt lib svc, some (matchValues t (rebuiltList lib svc.dataList))) := by
  unfold normalized at hq
  split at hq
  · rename_i hv
    have ht : runesOf (ToLower lib.unicodeLower q) = t := by simpa using hq
    simp only [RetrieveData, hv, if_true, String2RuneList_eq, ok_bind, ht,
      findMatches_eq lib svc hI t]
    by_cases hm : matchValues t (rebuiltList lib svc.dataList) = []
    · simp [sliceOf, hm, rebuilt, hI.1]
    · simp [sliceOf, hm]
  · cases hq

theorem RetrieveData_invalid (lib : GoLib) (svc : FastMatching) (q : Bytes)
    (hq : normalized lib q = none) : RetrieveData lib svc q = .ok (svc, none) := by
  unfold normalized at hq
  split at hq
  · cases hq
  · rename_i hv
    simp [RetrieveData, hv]

theorem RegistData_eq (lib : GoLib) (svc : FastMatching) (k : Bytes) (v : Int) :
    RegistData lib svc k v =
      match normalized lib k with
      | some key => .ok (withEntry svc key v, true)
      | none => .ok (svc, false) := by
  unfold normalized
  by_cases hv : Valid (ToLower lib.unicodeLower k) = true
  · simp [RegistData, hv, String2RuneList_eq, withEntry]
  · simp [RegistData, hv]

/-! ## Invariant of the public calls -/

theorem Inv_New (lib : GoLib) : Inv lib NewFastMatching := by
  simp [Inv, NewFastMatching]

theorem Inv_rebuilt (lib : GoLib) (svc : FastMatching) (hI : Inv lib svc) :
    Inv lib (rebuilt lib svc) := by
  exact ⟨hI.1, fun _ => rfl⟩

theorem Inv_Clear (lib : GoLib) (svc : FastMatching) (hI : Inv lib svc) :
    Inv lib (Clear svc) := by
  exact ⟨hI.1, fun h => by simp [Clear] at h⟩

/-- Every sequence of public calls runs to the end; the index it leaves satisfies `Inv` and
its entry store holds exactly the live entries. -/
theorem runCalls_eq (lib : GoLib) : ∀ (cs : List Call) (svc : FastMatching), Inv lib svc →
    ∃ svc1, runCalls lib svc cs = .ok svc1 ∧ Inv lib svc1 ∧
      svc1.dataList = liveEntries lib svc.dataList cs := by
  intro cs
  induction cs with
  | nil => intro svc hI; exact ⟨svc, rfl, hI, rfl⟩
  | cons c cs ih =>
    intro svc hI
    cases c with
    | RegistData k v =>
      cases hk : normalized lib k with
      | some key =>
        have hI1 : Inv lib (withEntry svc key v) := ⟨hI.1, fun h => by simp [withEntry] at h⟩
        obtain ⟨svc1, h1, h2, h3⟩ := ih _ hI1
        refine ⟨svc1, ?_, h2, ?_⟩
        · simp only [runCalls, call, RegistData_eq, hk, ok_bind, h1]
        · simp only [liveEntries, hk, h3, withEntry]
      | none =>
        obtain ⟨svc1, h1, h2, h3⟩ := ih _ hI
        refine ⟨svc1, ?_, h2, ?_⟩
        · simp only [runCalls, call, RegistData_eq, hk, ok_bind, h1]
        · simp only [liveEntries, hk, h3]
    | RetrieveData q =>
      cases hq : normalized lib q with
      | some t =>
        obtain ⟨svc1, h1, h2, h3⟩ := ih _ (Inv_rebuilt lib svc hI)
        refine ⟨svc1, ?_, h2, ?_⟩
        · simp only [runCalls, call, RetrieveData_eq lib svc hI q t hq, ok_bind, h1]
        · simpa only [liveEntries] using h3
      | none =>
        obtain ⟨svc1, h1, h2, h3⟩ := ih _ hI
        refine ⟨svc1, ?_, h2, ?_⟩
        · simp only [runCalls, call, RetrieveData_invalid lib svc q hq, ok_bind, h1]
        · simpa only [liveEntries] using h3
    | Clear =>
      obtain ⟨svc1, h1, h2, h3⟩ := ih _ (Inv_Clear lib svc hI)
      refine ⟨svc1, ?_, h2, ?_⟩
      · simp only [runCalls, call, ok_bind, h1]
      · simpa only [liveEntries] using h3

/-! ## A concrete library -/

instance keyLe_total : IsTotal searchItem (fun a b => keyLess b.key a.key = false) :=
  ⟨fun a b => keyLess_total a.key b.key⟩

instance keyLe_trans : IsTrans searchItem (fun a b => keyLess b.key a.key = false) :=
  ⟨fun a b c h1 h2 => keyLess_trans a.key b.key c.key h1 h2⟩

/-- A library instance to run the model on: insertion sort, and for the Unicode branch of
`strings.ToLower` the re-encoding `strings.Map` over a case table that lowers `A`..`Z`. -/
def stdLib : GoLib where
  unicodeLower := Map lowerRuneASCII
  sort := insertionSortByRune
  sort_perm := fun l => List.perm_insertionSort _ l
  sort_sorted := by
    intro l i j hij hj
    have hs : (insertionSortByRune l).Pairwise (fun a b => keyLess b.key a.key = false) :=
      List.sorted_insertionSort _ l
    rw [Less_eq _ j i hj (by omega)]
    have := List.pairwise_iff_getElem.mp hs i j (by omega) hj hij
    simpa using this

/-! ## What a query returns, in terms of the entry store -/

theorem mem_suffixItems (e it : searchItem) :
    it ∈ suffixItems e ↔
      it = e ∨ ∃ i, 1 ≤ i ∧ i < e.key.length ∧ it = { key := e.key.drop i, value := e.value } := by
  simp only [suffixItems, List.mem_cons, List.mem_map, List.mem_range']
  constructor
  · rintro (h | ⟨i, ⟨j, hj, rfl⟩, rfl⟩)
    · exact Or.inl h
    · exact Or.inr ⟨1 + 1 * j, by omega, by omega, rfl⟩
  · rintro (h | ⟨i, h1, h2, rfl⟩)
    · exact Or.inl h
    · exact Or.inr ⟨i, ⟨i - 1, by omega, by omega⟩, rfl⟩

theorem rebuiltList_perm (lib : GoLib) (dl : List searchItem) :
    (rebuiltList lib dl).Perm (dl.flatMap suffixItems) :=
  lib.sort_perm _

theorem matchValues_perm (t : List Int) (l1 l2 : List searchItem) (h : l1.Perm l2) :
    (matchValues t l1).Perm (matchValues t l2) :=
  (h.filter _).map _

theorem mem_matchValues (t : List Int) (l : List searchItem) (v : Int) :
    v ∈ matchValues t l ↔ ∃ it ∈ l, t <+: it.key ∧ it.value = v := by
  simp [matchValues, and_assoc]

/-- Completeness over the entry store: an entry whose key contains `t` gets its value
returned for `t`. -/
theorem matchValues_complete (lib : GoLib) (dl : List searchItem) (e : searchItem)
    (he : e ∈ dl) (t : List Int) (ht : t <:+: e.key) :
    e.value ∈ matchValues t (rebuiltList lib dl) := by
  rw [(matchValues_perm t _ _ (rebuiltList_perm lib dl)).mem_iff, mem_matchValues]
  obtain ⟨p, r, hpr⟩ := ht
  by_cases hp : p = [] ∨ t = []
  · refine ⟨e, List.mem_flatMap.mpr ⟨e, he, (mem_suffixItems e e).mpr (Or.inl rfl)⟩, ?_, rfl⟩
    rcases hp with hp | hp
    · subst hp
      exact ⟨r, by simpa using hpr⟩
    · subst hp
      exact List.nil_prefix
  · have hp1 : p ≠ [] := fun h => hp (Or.inl h)
    have ht1 : t ≠ [] := fun h => hp (Or.inr h)
    have hlen : e.key.length = p.length + t.length + r.length := by
      rw [← hpr]; simp [Nat.add_assoc]
    have hpl : 0 < p.length := List.length_pos.mpr hp1
    have htl : 0 < t.length := List.length_pos.mpr ht1
    refine ⟨{ key := e.key.drop p.length, value := e.value }, ?_, ?_, rfl⟩
    · exact List.mem_flatMap.mpr ⟨e, he,
        (mem_suffixItems e _).mpr (Or.inr ⟨p.length, by omega, by omega, rfl⟩)⟩
    · refine ⟨r, ?_⟩
      rw [← hpr]
      simp [List.append_assoc]

/-- Soundness over the entry store: a value returned for `t` is the value of an entry whose
key contains `t`. -/
theorem matchValues_sound (lib : GoLib) (dl : List searchItem) (t : List Int) (v : Int)
    (hv : v ∈ matchValues t (rebuiltList lib dl)) :
    ∃ e ∈ dl, e.value = v ∧ t <:+: e.key := by
  rw [(matchValues_perm t _ _ (rebuiltList_perm lib dl)).mem_iff, mem_matchValues] at hv
  obtain ⟨it, hit, hpre, hval⟩ := hv
  obtain ⟨e, he, hite⟩ := List.mem_flatMap.mp hit
  refine ⟨e, he, ?_, ?_⟩
  · rcases (mem_suffixItems e it).mp hite with h | ⟨i, _, _, h⟩
    · rw [← h]; exact hval
    · rw [← hval, h]
  · rcases (mem_suffixItems e it).mp hite with h | ⟨i, _, _, h⟩
    · rw [← h]; exact hpre.isInfix
    · rw [h] at hpre
      exact hpre.isInfix.trans (List.drop_suffix i e.key).isInfix

theorem normalized_empty (lib : GoLib) : normalized lib [] = some [] := by
  simp [normalized, ToLower, Valid, ValidLoop, runesOf, decodeLoop]

/-- On an index the public calls can produce, a query with a well-formed string returns a
non-`nil` slice holding, up to order, the values of the suffix records of the entry store
that start with the query, and leaves the index rebuilt. -/
theorem RetrieveData_perm (lib : GoLib) (svc : FastMatching) (hI : Inv lib svc) (q : Bytes)
    (t : List Int) (hq : normalized lib q = some t) :
    ∃ r, RetrieveData lib svc q = .ok (rebuilt lib svc, some r) ∧
      r.Perm (matchValues t (svc.dataList.flatMap suffixItems)) :=
  ⟨_, RetrieveData_eq lib svc hI q t hq,
    matchValues_perm t _ _ (rebuiltList_perm lib svc.dataList)⟩

theorem rebuilt_dataList (lib : GoLib) (svc : FastMatching) :
    (rebuilt lib svc).dataList = svc.dataList := rfl

theorem Inv_withEntry (lib : GoLib) (svc : FastMatching) (hI : Inv lib svc) (key : List Int)
    (v : Int) : Inv lib (withEntry svc key v) :=
  ⟨hI.1, fun h => by simp [withEntry] at h⟩

theorem matchValues_nil_query (l : List searchItem) :
    matchValues [] l = l.map (fun it => it.value) := by
  simp [matchValues]

theorem le_count_flatMap_suffixItems (e : searchItem) (dl : List searchItem) :
    dl.count e ≤ (dl.flatMap suffixItems).count e := by
  induction dl with
  | nil => simp
  | cons x xs ih =>
    simp only [List.flatMap_cons, List.count_append, List.count_cons]
    have hx : (if x == e then 1 else 0) ≤ (suffixItems x).count e := by
      split
      · rename_i h
        have hxe : x = e := by simpa using h
        subst hxe
        exact List.count_pos_iff.mpr ((mem_suffixItems x x).mpr (Or.inl rfl))
      · omega
    omega

theorem count_le_matchValues (t : List Int) (e : searchItem) (l : List searchItem)
    (ht : t <+: e.key) : l.count e ≤ (matchValues t l).count e.value := by
  unfold matchValues
  have h1 : l.count e = (l.filter (fun it => decide (t <+: it.key))).count e := by
    rw [List.count_filter]
    simpa using ht
  rw [h1]
  exact List.count_le_count_map _ _ _

theorem liveEntries_append (lib : GoLib) : ∀ (cs1 cs2 : List Call) (acc : List searchItem),
    liveEntries lib acc (cs1 ++ cs2) = liveEntries lib (liveEntries lib acc cs1) cs2 := by
  intro cs1
  induction cs1 with
  | nil => intro cs2 acc; rfl
  | cons c cs ih =>
    intro cs2 acc
    cases c with
    | RegistData k v =>
      cases hk : normalized lib k with
      | some key =>
        rw [List.cons_append]
        simp only [liveEntries, hk]
        exact ih _ _
      | none =>
        rw [List.cons_append]
        simp only [liveEntries, hk]
        exact ih _ _
    | RetrieveData q =>
      rw [List.cons_append]
      simp only [liveEntries]
      exact ih _ _
    | Clear =>
      rw [List.cons_append]
      simp only [liveEntries]
      exact ih _ _

theorem liveEntries_replicate (lib : GoLib) (k : Bytes) (key : List Int) (v : Int)
    (hk : normalized lib k = some key) : ∀ (m : Nat) (acc : List searchItem),
    liveEntries lib acc (List.replicate m (.RegistData k v))
      = acc ++ List.replicate m { key := key, value := v } := by
  intro m
  induction m with
  | zero => intro acc; simp [liveEntries]
  | succ m ih =>
    intro acc
    simp only [List.replicate_succ, liveEntries, hk, ih, List.append_assoc, List.singleton_append]

/-- A value is returned at least as often as its entry occurs in the entry store, for a
query that starts the entry's key. -/
theorem count_le_retrieved (lib : GoLib) (dl : List searchItem) (e : searchItem) (t : List Int)
    (ht : t <+: e.key) : dl.count e ≤ (matchValues t (rebuiltList lib dl)).count e.value := by
  rw [(matchValues_perm t _ _ (rebuiltList_perm lib dl)).count_eq]
  exact (le_count_flatMap_suffixItems e dl).trans (count_le_matchValues t e _ ht)

/-- A query longer than every key of the entry store matches nothing. -/
theorem matchValues_overlong (lib : GoLib) (dl : List searchItem) (t : List Int)
    (h : ∀ e ∈ dl, e.key.length < t.length) : matchValues t (rebuiltList lib dl) = [] := by
  rw [List.eq_nil_iff_forall_not_mem]
  intro v hv
  obtain ⟨e, he, _, hinf⟩ := matchValues_sound lib dl t v hv
  have := hinf.length_le
  have := h e he
  omega

/-- With the flag lowered `findMatches` does not call the library: no rebuild, no sort. -/
theorem findMatches_clean (lib lib2 : GoLib) (svc : FastMatching) (t : List Int)
    (h : svc.needReIndex = false) : findMatches lib2 svc t = findMatches lib svc t := by
  simp only [findMatches, h, Bool.false_eq_true, if_false]

theorem RetrieveData_clean (lib lib2 : GoLib) (svc : FastMatching) (q : Bytes)
    (h : svc.needReIndex = false) (hl : lib2.unicodeLower = lib.unicodeLower) :
    RetrieveData lib2 svc q = RetrieveData lib svc q := by
  simp only [RetrieveData, hl, findMatches_clean lib lib2 svc _ h]

/-- On a string of ASCII bytes the normal form does not depend on the library: the Unicode
branch of `strings.ToLower` is not taken. -/
theorem normalized_of_ascii (lib : GoLib) (s : Bytes)
    (h : s.all (fun c => decide (c < 0x80)) = true) : normalized lib s = normalized stdLib s := by
  simp only [normalized, ToLower, h, if_true]

theorem suffixItems_eq_recordsOf (e : searchItem) : suffixItems e = recordsOf e := by
  cases e with
  | mk key value =>
    cases key with
    | nil => simp [suffixItems, recordsOf]
    | cons x xs =>
      simp only [suffixItems, recordsOf, suffixRecords, List.length_cons, Nat.add_sub_cancel,
        reduceCtorEq, if_false]
      rw [List.range_eq_range', List.range'_succ, List.map_cons]
      simp

theorem length_recordsOf (e : searchItem) : (recordsOf e).length = max 1 e.key.length := by
  cases hk : e.key with
  | nil => simp [recordsOf, hk]
  | cons x xs => simp [recordsOf, suffixRecords, hk]

theorem flatMap_recordsOf_of_ne_nil (dl : List searchItem) (h : ∀ e ∈ dl, e.key ≠ []) :
    dl.flatMap recordsOf = dl.flatMap suffixRecords := by
  induction dl with
  | nil => rfl
  | cons x xs ih =>
    have hx : recordsOf x = suffixRecords x := by
      simp [recordsOf, h x (List.mem_cons_self _ _)]
    rw [List.flatMap_cons, List.flatMap_cons, hx,
      ih (fun e he => h e (List.mem_cons_of_mem _ he))]

theorem length_flatMap_recordsOf (dl : List searchItem) :
    (dl.flatMap recordsOf).length = (dl.map (fun e => max 1 e.key.length)).sum := by
  induction dl with
  | nil => rfl
  | cons x xs ih =>
    rw [List.flatMap_cons, List.length_append, ih, length_recordsOf, List.map_cons,
      List.sum_cons]

theorem length_flatMap_suffixRecords (dl : List searchItem) :
    (dl.flatMap suffixRecords).length = (dl.map (fun e => e.key.length)).sum := by
  induction dl with
  | nil => rfl
  | cons x xs ih =>
    rw [List.flatMap_cons, List.length_append, ih, List.map_cons, List.sum_cons]
    simp [suffixRecords]

theorem flatMap_suffixItems (dl : List searchItem) :
    dl.flatMap suffixItems = dl.flatMap recordsOf := by
  have h : suffixItems = recordsOf := funext suffixItems_eq_recordsOf
  rw [h]

theorem keyLess_iff_specLess : ∀ (a b : List Int), keyLess a b = true ↔ specLess a b := by
  intro a
  induction a with
  | nil =>
    intro b
    cases b with
    | nil =>
      simp only [keyLess, Bool.false_eq_true, false_iff]
      rintro (⟨p, x, r, y, s, h1, _, _⟩ | ⟨s, hs, h⟩)
      · cases p <;> cases h1
      · exact hs (by simpa using h.symm)
    | cons y ys =>
      simp only [keyLess, true_iff]
      exact Or.inr ⟨y :: ys, by simp, by simp⟩
  | cons x xs ih =>
    intro b
    cases b with
    | nil =>
      simp only [keyLess, Bool.false_eq_true, false_iff]
      rintro (⟨p, x1, r, y, s, _, h2, _⟩ | ⟨s, _, h⟩)
      · cases p <;> cases h2
      · cases h
    | cons y ys =>
      simp only [keyLess]
      by_cases hxy : x = y
      · subst hxy
        simp only [ne_eq, not_true_eq_false, if_false, ih ys]
        constructor
        · rintro (⟨p, x1, r, y, s, h1, h2, h3⟩ | ⟨s, hs, h⟩)
          · exact Or.inl ⟨x :: p, x1, r, y, s, by simp [h1], by simp [h2], h3⟩
          · exact Or.inr ⟨s, hs, by simp [h]⟩
        · rintro (⟨p, x1, r, y, s, h1, h2, h3⟩ | ⟨s, hs, h⟩)
          · cases p with
            | nil =>
              simp only [List.nil_append, List.cons.injEq] at h1 h2
              omega
            | cons z p =>
              simp only [List.cons_append, List.cons.injEq] at h1 h2
              exact Or.inl ⟨p, x1, r, y, s, h1.2, h2.2, h3⟩
          · simp only [List.cons_append, List.cons.injEq, true_and] at h
            exact Or.inr ⟨s, hs, h⟩
      · simp only [ne_eq, hxy, not_false_eq_true, if_true, decide_eq_true_eq]
        constructor
        · intro hlt
          exact Or.inl ⟨[], x, xs, y, ys, rfl, rfl, hlt⟩
        · rintro (⟨p, x1, r, y1, s, h1, h2, h3⟩ | ⟨s, _, h⟩)
          · cases p with
            | nil =>
              simp only [List.nil_append, List.cons.injEq] at h1 h2
              omega
            | cons z p =>
              simp only [List.cons_append, List.cons.injEq] at h1 h2
              omega
          · simp only [List.cons_append, List.cons.injEq] at h
            omega

theorem Sorted_of_Less (l : List searchItem)
    (h : ∀ i j, i < j → j < l.length → ByRune.Less l j i = .ok false) : Sorted l := by
  unfold Sorted
  rw [List.pairwise_iff_getElem]
  intro i j hi hj hij
  have h1 := h i j hij hj
  rw [Less_eq l j i hj hi] at h1
  simpa using h1

theorem cmpKey_neg_iff : ∀ (k t : List Int),
    cmpKey k t < 0 ↔ ¬ t <+: k ∧ keyLess k t = true := by
  intro k
  induction k with
  | nil =>
    intro t
    cases t with
    | nil => simp [cmpKey, keyLess]
    | cons s ss => simp [cmpKey, keyLess]
  | cons f fs ih =>
    intro t
    cases t with
    | nil => simp [cmpKey, keyLess]
    | cons s ss =>
      simp only [cmpKey, keyLess, List.cons_prefix_cons]
      by_cases h1 : f > s
      · have hne : ¬ f = s := by omega
        have hne2 : ¬ s = f := by omega
        have hlt : ¬ f < s := by omega
        simp [h1, hne, hne2, hlt]
      · by_cases h2 : f < s
        · have hne : ¬ f = s := by omega
          have hne2 : ¬ s = f := by omega
          simp [h1, h2, hne, hne2]
        · have heq : s = f := by omega
          subst heq
          simp [ih ss]

theorem cmpKey_pos_iff : ∀ (k t : List Int),
    0 < cmpKey k t ↔ ¬ t <+: k ∧ keyLess t k = true := by
  intro k
  induction k with
  | nil =>
    intro t
    cases t with
    | nil => simp [cmpKey, keyLess]
    | cons s ss => simp [cmpKey, keyLess]
  | cons f fs ih =>
    intro t
    cases t with
    | nil => simp [cmpKey, keyLess]
    | cons s ss =>
      simp only [cmpKey, keyLess, List.cons_prefix_cons]
      by_cases h1 : f > s
      · have hne : ¬ f = s := by omega
        have hne2 : ¬ s = f := by omega
        have hlt : s < f := by omega
        simp [h1, hne, hne2, hlt]
      · by_cases h2 : f < s
        · have hne : ¬ f = s := by omega
          have hne2 : ¬ s = f := by omega
          have hlt : ¬ s < f := by omega
          simp [h1, h2, hne, hne2, hlt]
        · have heq : s = f := by omega
          subst heq
          simp [ih ss]

theorem linearScan_eq_matchValues (t : List Int) (l : List searchItem) :
    linearScan t l = matchValues t l := by
  induction l with
  | nil => rfl
  | cons x xs ih =>
    by_cases h : t <+: x.key
    · simp [linearScan, matchValues, h, ← ih, List.filter_cons]
      simpa [matchValues] using ih
    · simp [linearScan, matchValues, h, List.filter_cons]
      simpa [matchValues] using ih

/-- On a clean index with a sorted search list `findMatches` returns the linear scan. -/
theorem findMatches_sorted (lib : GoLib) (svc : FastMatching) (l : List searchItem)
    (t : List Int) (hl : svc.searchList = some l) (hn : svc.needReIndex = false)
    (hs : Sorted l) : findMatches lib svc t = .ok (svc, sliceOf (matchValues t l)) := by
  simp only [findMatches, hn, Bool.false_eq_true, if_false, ok_bind, hl, deref,
    searchLoop_sorted svc t l hl hs]

theorem elems_sliceOf (vals : List Int) : elems (sliceOf vals) = vals := by
  by_cases h : vals = []
  · simp [sliceOf, elems, h]
  · simp [sliceOf, elems, h]

/-! ## The query loops over any search list -/

/-- Whatever the search list holds, `subRuneCompare` returns, and not with zero for a
position outside the list. -/
theorem subRuneCompare_total (svc : FastMatching) (t : List Int) (l : List searchItem)
    (hl : svc.searchList = some l) (pos : Int) :
    ∃ c, subRuneCompare svc pos t = .ok c ∧ ((pos < 0 ∨ (l.length : Int) ≤ pos) → c ≠ 0) := by
  by_cases h0 : pos < 0
  · exact ⟨-1, subRuneCompare_neg svc t pos h0, fun _ => by omega⟩
  · by_cases h1 : (l.length : Int) ≤ pos
    · exact ⟨1, subRuneCompare_ge svc t l hl pos h1, fun _ => by omega⟩
    · obtain ⟨k, rfl⟩ := Int.eq_ofNat_of_zero_le (by omega : 0 ≤ pos)
      have hk : k < l.length := by omega
      exact ⟨_, subRuneCompare_at svc t l hl k hk, fun h => by omega⟩

theorem expandLeft_total (svc : FastMatching) (t : List Int) (l : List searchItem)
    (hl : svc.searchList = some l) :
    ∀ (fuel : Nat) (pos : Int), 0 ≤ pos → pos + 1 ≤ fuel →
      ∃ f, expandLeft svc t fuel pos = .ok f ∧ 0 ≤ f ∧ f ≤ pos := by
  intro fuel
  induction fuel with
  | zero => intro pos h0 h1; omega
  | succ n ih =>
    intro pos h0 h1
    obtain ⟨c, hc, hout⟩ := subRuneCompare_total svc t l hl (pos - 1)
    by_cases hz : c = 0
    · have hin : 0 ≤ pos - 1 := by
        by_contra hneg
        exact hout (Or.inl (by omega)) hz
      obtain ⟨f, hf, hf0, hf1⟩ := ih (pos - 1) hin (by omega)
      refine ⟨f, ?_, hf0, by omega⟩
      simp only [expandLeft, hc, ok_bind, hz, if_true, hf]
    · exact ⟨pos, by simp only [expandLeft, hc, ok_bind, hz, if_false], h0, Int.le_refl _⟩

theorem expandRight_total (svc : FastMatching) (t : List Int) (l : List searchItem)
    (hl : svc.searchList = some l) :
    ∀ (fuel : Nat) (pos : Int), pos < l.length → (l.length : Int) - pos ≤ fuel →
      ∃ u, expandRight svc t fuel pos = .ok u ∧ pos ≤ u ∧ u < l.length := by
  intro fuel
  induction fuel with
  | zero => intro pos h0 h1; omega
  | succ n ih =>
    intro pos h0 h1
    obtain ⟨c, hc, hout⟩ := subRuneCompare_total svc t l hl (pos + 1)
    by_cases hz : c = 0
    · have hin : pos + 1 < l.length := by
        by_contra hge
        exact hout (Or.inr (by omega)) hz
      obtain ⟨u, hu, hu0, hu1⟩ := ih (pos + 1) hin (by omega)
      refine ⟨u, ?_, by omega, hu1⟩
      simp only [expandRight, hc, ok_bind, hz, if_true, hu]
    · exact ⟨pos, by simp only [expandRight, hc, ok_bind, hz, if_false], Int.le_refl _, h0⟩

theorem collectRange_total (svc : FastMatching) (t : List Int) (l : List searchItem)
    (hl : svc.searchList = some l) (budget : Nat) (hb : l.length ≤ budget) (pos : Int)
    (h0 : 0 ≤ pos) (h1 : pos < l.length) :
    ∃ list, collectRange svc t budget pos = .ok list := by
  obtain ⟨f, hf, hf0, hf1⟩ := expandLeft_total svc t l hl budget pos h0 (by omega)
  obtain ⟨u, hu, hu0, hu1⟩ := expandRight_total svc t l hl budget pos h1 (by omega)
  obtain ⟨k, rfl⟩ := Int.eq_ofNat_of_zero_le hf0
  obtain ⟨n, hn⟩ := Int.eq_ofNat_of_zero_le (by omega : 0 ≤ u - (k : Int) + 1)
  have hu2 : u = (k : Int) + (n : Int) - 1 := by omega
  subst hu2
  have hnn : ¬ ((n : Int) < 0) := by omega
  have hsz : (k : Int) + (n : Int) - 1 - (k : Int) + 1 = (n : Int) := by omega
  have hloop := collectLoop_eq svc l hl n k [] (by omega)
  simp only [List.length_nil, List.nil_append] at hloop
  refine ⟨((l.drop k).take n).map (fun it => it.value), ?_⟩
  simp only [collectRange, hf, hu, ok_bind, hsz, hnn, if_false, Int.toNat_ofNat, hloop]

/-- The middle of a non-empty interval lies in it, so both halves the binary search goes on
with are strictly smaller. -/
theorem mid_mem (from_ to_ : Int) (h : from_ ≤ to_) :
    from_ ≤ (from_ + to_) >>> (1 : Nat) ∧ (from_ + to_) >>> (1 : Nat) ≤ to_ := by
  have hpos : (from_ + to_) >>> (1 : Nat) = (from_ + to_) / 2 := by
    rw [Int.shiftRight_eq_div_pow]; rfl
  rw [hpos]
  omega

theorem searchLoop_total (svc : FastMatching) (t : List Int) (l : List searchItem)
    (hl : svc.searchList = some l) (budget : Nat) (hb : l.length ≤ budget) :
    ∀ (fuel : Nat) (from_ to_ : Int), 0 ≤ from_ → to_ < l.length → to_ - from_ + 1 ≤ fuel →
      ∃ r, searchLoop svc t budget fuel from_ to_ = .ok r := by
  intro fuel
  induction fuel with
  | zero =>
    intro from_ to_ _ _ h3
    have hlt : ¬ (from_ ≤ to_) := by omega
    exact ⟨none, by simp [searchLoop, hlt]⟩
  | succ n ih =>
    intro from_ to_ h1 h2 h3
    by_cases hle : from_ ≤ to_
    · obtain ⟨hm1, hm2⟩ := mid_mem from_ to_ hle
      obtain ⟨c, hc, _⟩ := subRuneCompare_total svc t l hl ((from_ + to_) >>> (1 : Nat))
      by_cases hz : c = 0
      · obtain ⟨list, hlist⟩ := collectRange_total svc t l hl budget hb
          ((from_ + to_) >>> (1 : Nat)) (by omega) (by omega)
        exact ⟨some list, by simp only [searchLoop, hle, if_true, hc, ok_bind, hz, hlist]⟩
      · by_cases hneg : c < 0
        · obtain ⟨r, hr⟩ := ih ((from_ + to_) >>> (1 : Nat) + 1) to_ (by omega) h2 (by omega)
          exact ⟨r, by simp only [searchLoop, hle, if_true, hc, ok_bind, hz, if_false, hneg, hr]⟩
        · obtain ⟨r, hr⟩ := ih from_ ((from_ + to_) >>> (1 : Nat) - 1) h1 (by omega) (by omega)
          exact ⟨r, by simp only [searchLoop, hle, if_true, hc, ok_bind, hz, if_false, hneg, hr]⟩
    · exact ⟨none, by simp [searchLoop, hle]⟩

/-- With a search list in place, or the flag raised, `findMatches` returns. -/
theorem findMatches_total (lib : GoLib) (svc : FastMatching) (t : List Int)
    (h : svc.needReIndex = false → svc.searchList ≠ none) :
    ∃ svc1 r, findMatches lib svc t = .ok (svc1, r) := by
  cases hn : svc.needReIndex with
  | true =>
    obtain ⟨r, hr⟩ := searchLoop_total (rebuilt lib svc) t (rebuiltList lib svc.dataList) rfl
      (rebuiltList lib svc.dataList).length (Nat.le_refl _)
      (rebuiltList lib svc.dataList).length 0 (((rebuiltList lib svc.dataList).length : Int) - 1)
      (by omega) (by omega) (by omega)
    refine ⟨rebuilt lib svc, r, ?_⟩
    simp only [findMatches, hn, if_true, reindex_eq lib svc hn, ok_bind]
    simp only [rebuilt, deref, ok_bind] at hr ⊢
    rw [hr]
    rfl
  | false =>
    cases hl : svc.searchList with
    | none => exact absurd hl (h hn)
    | some l =>
      obtain ⟨r, hr⟩ := searchLoop_total svc t l hl l.length (Nat.le_refl _) l.length 0
        ((l.length : Int) - 1) (by omega) (by omega) (by omega)
      exact ⟨svc, r, by simp only [findMatches, hn, Bool.false_eq_true, if_false, ok_bind, hl,
        deref, hr]⟩

theorem matchValues_append (t : List Int) (a b : List searchItem) :
    matchValues t (a ++ b) = matchValues t a ++ matchValues t b := by
  simp [matchValues]

theorem matchValues_flatMap (t : List Int) (g : searchItem → List searchItem)
    (dl : List searchItem) :
    matchValues t (dl.flatMap g) = dl.flatMap (fun e => matchValues t (g e)) := by
  induction dl with
  | nil => rfl
  | cons x xs ih => rw [List.flatMap_cons, List.flatMap_cons, matchValues_append, ih]

/-- For a non-empty query the records of one entry return its value once for each position
at which the query occurs in its key. -/
theorem matchValues_suffixItems (t : List Int) (ht : t ≠ []) (e : searchItem) :
    matchValues t (suffixItems e) = List.replicate (occurrences t e.key).length e.value := by
  rw [suffixItems_eq_recordsOf]
  by_cases hk : e.key = []
  · have hno : ¬ t <+: e.key := by
      rw [hk]
      intro h
      exact ht (List.prefix_nil.mp h)
    simp [recordsOf, hk, matchValues, occurrences, hno]
    exact ht
  · simp only [recordsOf, hk, if_false, suffixRecords, matchValues, occurrences,
      List.filter_map, List.map_map]
    rw [← List.map_const']
    rfl

theorem length_flatMap_replicate (f : searchItem → Nat) (dl : List searchItem) :
    (dl.flatMap (fun e => List.replicate (f e) e.value)).length = (dl.map f).sum := by
  induction dl with
  | nil => rfl
  | cons x xs ih =>
    rw [List.flatMap_cons, List.length_append, ih, List.map_cons, List.sum_cons,
      List.length_replicate]

/-! ## The lowercased string is well-formed -/

/-- C1. Completeness of the substring search. After any sequence of `RegistData`,
`RetrieveData` and `Clear` calls on a new index the run has returned, and for every entry
`e` registered since the last `Clear`: `RetrieveData(s)` returns a slice containing the value
of `e` for every `s` whose normal form is a contiguous part of the key of `e`, and also for
the empty string (whatever the key, the empty key included). -/
theorem C1_substring_search_complete (lib : GoLib) (calls : List Call) (e : searchItem)
    (he : e ∈ liveEntries lib [] calls) :
    ∃ svc, runCalls lib NewFastMatching calls = .ok svc ∧
      (∀ (s : Bytes) (t : List Int), normalized lib s = some t → t <:+: e.key →
        ∃ svc1 r, RetrieveData lib svc s = .ok (svc1, r) ∧ e.value ∈ elems r) ∧
      (∃ svc1 r, RetrieveData lib svc [] = .ok (svc1, r) ∧ e.value ∈ elems r) := by
  obtain ⟨svc, hrun, hI, hdl⟩ := runCalls_eq lib calls NewFastMatching (Inv_New lib)
  have hmem : e ∈ svc.dataList := by rw [hdl]; exact he
  have key : ∀ (s : Bytes) (t : List Int), normalized lib s = some t → t <:+: e.key →
      ∃ svc1 r, RetrieveData lib svc s = .ok (svc1, r) ∧ e.value ∈ elems r := by
    intro s t hs ht
    exact ⟨_, _, RetrieveData_eq lib svc hI s t hs,
      matchValues_complete lib svc.dataList e hmem t ht⟩
  exact ⟨svc, hrun, key, key [] [] (normalized_empty lib) List.nil_infix⟩

/-- C1 at a sample run: `Banana` registered after the `Clear` is found by the query `NAN`. -/
theorem C1_substring_search_complete_witness :
    ({ key := [98, 97, 110, 97, 110, 97], value := 3 } : searchItem)
        ∈ liveEntries stdLib [] demoCalls ∧
      ∃ svc svc1 r, runCalls stdLib NewFastMatching demoCalls = .ok svc ∧
        RetrieveData stdLib svc (str "NAN") = .ok (svc1, r) ∧ 3 ∈ elems r := by
  refine ⟨by decide, ?_⟩
  obtain ⟨svc, hrun, hall, _⟩ := C1_substring_search_complete stdLib demoCalls
    { key := [98, 97, 110, 97, 110, 97], value := 3 } (by decide)
  obtain ⟨svc1, r, hr, hmem⟩ := hall (str "NAN") [110, 97, 110] (by decide)
    ⟨[98, 97], [97], by decide⟩
  exact ⟨svc, svc1, r, hrun, hr, hmem⟩

/-- C2. Soundness of the substring search. After any sequence of calls on a new index, the
entry store holds exactly the entries registered since the last `Clear`, and every value
`RetrieveData(q)` returns is the value of an entry of that store whose key contains the
normal form of `q` as a contiguous part; the values returned are, up to order, those of
the suffix records of the store that start with the query. -/
theorem C2_substring_search_sound (lib : GoLib) (calls : List Call) (q : Bytes) :
    ∃ svc svc1 r, runCalls lib NewFastMatching calls = .ok svc ∧
      svc.dataList = liveEntries lib [] calls ∧
      RetrieveData lib svc q = .ok (svc1, r) ∧
      (∀ t, normalized lib q = some t →
        (elems r).Perm (matchValues t (svc.dataList.flatMap suffixItems))) ∧
      ∀ v ∈ elems r, ∃ t, normalized lib q = some t ∧
        ∃ e ∈ svc.dataList, e.value = v ∧ t <:+: e.key := by
  obtain ⟨svc, hrun, hI, hdl⟩ := runCalls_eq lib calls NewFastMatching (Inv_New lib)
  cases hq : normalized lib q with
  | none =>
    refine ⟨svc, svc, none, hrun, hdl, RetrieveData_invalid lib svc q hq, ?_, ?_⟩
    · intro t ht
      cases ht
    · intro v hv
      simp [elems] at hv
  | some t =>
    refine ⟨svc, _, _, hrun, hdl, RetrieveData_eq lib svc hI q t hq, ?_, ?_⟩
    · intro t1 ht1
      cases ht1
      exact matchValues_perm t _ _ (rebuiltList_perm lib svc.dataList)
    · intro v hv
      exact ⟨t, rfl, matchValues_sound lib svc.dataList t v hv⟩

/-- C3. The scenario of the specification. On a new index `RegistData("apple", 10)` and
`RegistData("application", 20)` succeed; then `RetrieveData("app")` contains 10 and 20,
`RetrieveData("le")` contains 10 and not 20, and `RetrieveData("z")` is the empty slice,
whether the three queries follow one another or each is the first query after the
registrations. -/
theorem C3_scenario_apple_application (lib : GoLib) :
    ∃ s1 s2, RegistData lib NewFastMatching (str "apple") 10 = .ok (s1, true) ∧
      RegistData lib s1 (str "application") 20 = .ok (s2, true) ∧
      (∃ s3 r1 s4 r2 s5, RetrieveData lib s2 (str "app") = .ok (s3, r1) ∧
        10 ∈ elems r1 ∧ 20 ∈ elems r1 ∧
        RetrieveData lib s3 (str "le") = .ok (s4, r2) ∧ 10 ∈ elems r2 ∧ 20 ∉ elems r2 ∧
        RetrieveData lib s4 (str "z") = .ok (s5, some [])) ∧
      (∃ s4 r2, RetrieveData lib s2 (str "le") = .ok (s4, r2) ∧
        10 ∈ elems r2 ∧ 20 ∉ elems r2) ∧
      (∃ s5, RetrieveData lib s2 (str "z") = .ok (s5, some [])) := by
  have ha : normalized lib (str "apple") = some [97, 112, 112, 108, 101] :=
    (normalized_of_ascii lib _ (by decide)).trans (by decide)
  have hb : normalized lib (str "application")
      = some [97, 112, 112, 108, 105, 99, 97, 116, 105, 111, 110] :=
    (normalized_of_ascii lib _ (by decide)).trans (by decide)
  have hq1 : normalized lib (str "app") = some [97, 112, 112] :=
    (normalized_of_ascii lib _ (by decide)).trans (by decide)
  have hq2 : normalized lib (str "le") = some [108, 101] :=
    (normalized_of_ascii lib _ (by decide)).trans (by decide)
  have hq3 : normalized lib (str "z") = some [122] :=
    (normalized_of_ascii lib _ (by decide)).trans (by decide)
  have hI1 := Inv_withEntry lib NewFastMatching (Inv_New lib) [97, 112, 112, 108, 101] 10
  have hI2 := Inv_withEntry lib _ hI1 [97, 112, 112, 108, 105, 99, 97, 116, 105, 111, 110] 20
  have hI3 := Inv_rebuilt lib _ hI2
  obtain ⟨r1, hr1, hp1⟩ := RetrieveData_perm lib _ hI2 _ _ hq1
  obtain ⟨r2, hr2, hp2⟩ := RetrieveData_perm lib _ hI3 _ _ hq2
  obtain ⟨r3, hr3, hp3⟩ := RetrieveData_perm lib _ (Inv_rebuilt lib _ hI3) _ _ hq3
  obtain ⟨r2a, hr2a, hp2a⟩ := RetrieveData_perm lib _ hI2 _ _ hq2
  rw [rebuilt_dataList] at hp2
  rw [rebuilt_dataList, rebuilt_dataList] at hp3
  obtain ⟨r3a, hr3a, hp3a⟩ := RetrieveData_perm lib _ hI2 _ _ hq3
  have hz : r3 = [] := List.Perm.eq_nil hp3
  have hza : r3a = [] := List.Perm.eq_nil hp3a
  subst hz hza
  refine ⟨_, _, by rw [RegistData_eq, ha], by rw [RegistData_eq, hb],
    ⟨_, _, _, _, _, hr1, ?_, ?_, hr2, ?_, ?_, hr3⟩, ⟨_, _, hr2a, ?_, ?_⟩, ⟨_, hr3a⟩⟩
  · exact hp1.mem_iff.mpr (by decide)
  · exact hp1.mem_iff.mpr (by decide)
  · exact hp2.mem_iff.mpr (by decide)
  · exact fun h => absurd (hp2.mem_iff.mp h) (by decide)
  · exact hp2a.mem_iff.mpr (by decide)
  · exact fun h => absurd (hp2a.mem_iff.mp h) (by decide)

/-- C4. Case-insensitivity. On every index two queries with the same lowercased form give
the same result, and two keys with the same lowercased form are registered alike (keys and
queries go through the same lowercase-then-decode steps); on a new index, after
`RegistData("Hello", 1)`, both `RetrieveData("LO")` and `RetrieveData("lo")` return
exactly `[1]`, asked in either order or each first. -/
theorem C4_case_insensitive (lib : GoLib) :
    (∀ (svc : FastMatching) (q1 q2 : Bytes),
      ToLower lib.unicodeLower q1 = ToLower lib.unicodeLower q2 →
        RetrieveData lib svc q1 = RetrieveData lib svc q2) ∧
    (∀ (svc : FastMatching) (k1 k2 : Bytes) (v : Int),
      ToLower lib.unicodeLower k1 = ToLower lib.unicodeLower k2 →
        RegistData lib svc k1 v = RegistData lib svc k2 v) ∧
    ∃ s1 s2, RegistData lib NewFastMatching (str "Hello") 1 = .ok (s1, true) ∧
      s1.dataList = [{ key := [104, 101, 108, 108, 111], value := 1 }] ∧
      RetrieveData lib s1 (str "LO") = .ok (s2, some [1]) ∧
      RetrieveData lib s1 (str "lo") = .ok (s2, some [1]) ∧
      RetrieveData lib s2 (str "LO") = .ok (s2, some [1]) ∧
      RetrieveData lib s2 (str "lo") = .ok (s2, some [1]) := by
  refine ⟨?_, ?_, ?_⟩
  · intro svc q1 q2 h
    simp only [RetrieveData, h]
  · intro svc k1 k2 v h
    simp only [RegistData, h]
  · have hk : normalized lib (str "Hello") = some [104, 101, 108, 108, 111] :=
    (normalized_of_ascii lib _ (by decide)).trans (by decide)
    have hq1 : normalized lib (str "LO") = some [108, 111] :=
    (normalized_of_ascii lib _ (by decide)).trans (by decide)
    have hq2 : normalized lib (str "lo") = some [108, 111] :=
    (normalized_of_ascii lib _ (by decide)).trans (by decide)
    have hI1 := Inv_withEntry lib NewFastMatching (Inv_New lib) [104, 101, 108, 108, 111] 1
    have hI2 := Inv_rebuilt lib _ hI1
    obtain ⟨r1, hr1, hp1⟩ := RetrieveData_perm lib _ hI1 _ _ hq1
    obtain ⟨r2, hr2, hp2⟩ := RetrieveData_perm lib _ hI1 _ _ hq2
    obtain ⟨r3, hr3, hp3⟩ := RetrieveData_perm lib _ hI2 _ _ hq1
    obtain ⟨r4, hr4, hp4⟩ := RetrieveData_perm lib _ hI2 _ _ hq2
    rw [rebuilt_dataList] at hp3 hp4
    have hm : matchValues [108, 111]
        ((withEntry NewFastMatching [104, 101, 108, 108, 111] 1).dataList.flatMap suffixItems)
        = [1] := by decide
    have e1 : r1 = [1] := List.perm_singleton.mp (hm ▸ hp1)
    have e2 : r2 = [1] := List.perm_singleton.mp (hm ▸ hp2)
    have e3 : r3 = [1] := List.perm_singleton.mp (hm ▸ hp3)
    have e4 : r4 = [1] := List.perm_singleton.mp (hm ▸ hp4)
    subst e1 e2 e3 e4
    have hself : rebuilt lib (rebuilt lib (withEntry NewFastMatching [104, 101, 108, 108, 111] 1))
        = rebuilt lib (withEntry NewFastMatching [104, 101, 108, 108, 111] 1) := rfl
    rw [hself] at hr3 hr4
    exact ⟨_, _, by rw [RegistData_eq, hk], rfl, hr1, hr2, hr3, hr4⟩

/-- C4 at sample strings: `LO` and `lo` have the same lowercased form, so they are answered
alike on the index holding `Hello`. -/
theorem C4_case_insensitive_witness :
    ToLower stdLib.unicodeLower (str "LO") = ToLower stdLib.unicodeLower (str "lo") ∧
      RetrieveData stdLib (withEntry NewFastMatching [104, 101, 108, 108, 111] 1) (str "LO")
        = RetrieveData stdLib (withEntry NewFastMatching [104, 101, 108, 108, 111] 1)
            (str "lo") :=
  ⟨by decide, (C4_case_insensitive stdLib).1 _ _ _ (by decide)⟩

/-- C5. Duplicate registrations are additive and all preserved. For every key `k` whose
registration succeeds (empty or not) and values `v1`, `v2`, equal or different: on any
reachable index, after `RegistData(k, v1)` and `RegistData(k, v2)` the slice
`RetrieveData(k)` returns contains `v1` and `v2`; a value is returned at least as often as
its entry `(k, v)` is live, so registering `(k, v)` a further `m` times makes `v` occur at
least `m` times; and on a new index `RegistData("ab", 1)`, `RegistData("ab", 2)` make
`RetrieveData("ab")` contain 1 and 2. -/
theorem C5_duplicates_additive (lib : GoLib) :
    (∀ (calls : List Call) (k : Bytes) (key : List Int) (v1 v2 : Int),
      normalized lib k = some key →
        ∃ svc s1 s2 s3 r, runCalls lib NewFastMatching calls = .ok svc ∧
          RegistData lib svc k v1 = .ok (s1, true) ∧ RegistData lib s1 k v2 = .ok (s2, true) ∧
          RetrieveData lib s2 k = .ok (s3, r) ∧ v1 ∈ elems r ∧ v2 ∈ elems r) ∧
    (∀ (calls : List Call) (k : Bytes) (key : List Int) (v : Int),
      normalized lib k = some key →
        ∃ svc s r, runCalls lib NewFastMatching calls = .ok svc ∧
          RetrieveData lib svc k = .ok (s, r) ∧
          (liveEntries lib [] calls).count { key := key, value := v } ≤ (elems r).count v) ∧
    (∀ (calls : List Call) (k : Bytes) (key : List Int) (v : Int) (m : Nat),
      normalized lib k = some key →
        ∃ svc s r,
          runCalls lib NewFastMatching (calls ++ List.replicate m (.RegistData k v)) = .ok svc ∧
          RetrieveData lib svc k = .ok (s, r) ∧ m ≤ (elems r).count v) ∧
    (∃ s1 s2 s3 r, RegistData lib NewFastMatching (str "ab") 1 = .ok (s1, true) ∧
      RegistData lib s1 (str "ab") 2 = .ok (s2, true) ∧
      RetrieveData lib s2 (str "ab") = .ok (s3, r) ∧ 1 ∈ elems r ∧ 2 ∈ elems r) := by
  have two : ∀ (svc : FastMatching) (k : Bytes) (key : List Int) (v1 v2 : Int),
      Inv lib svc → normalized lib k = some key →
        ∃ s1 s2 s3 r, RegistData lib svc k v1 = .ok (s1, true) ∧
          RegistData lib s1 k v2 = .ok (s2, true) ∧
          RetrieveData lib s2 k = .ok (s3, r) ∧ v1 ∈ elems r ∧ v2 ∈ elems r := by
    intro svc k key v1 v2 hI hk
    have hI2 := Inv_withEntry lib _ (Inv_withEntry lib svc hI key v1) key v2
    refine ⟨_, _, _, _, by rw [RegistData_eq, hk], by rw [RegistData_eq, hk],
      RetrieveData_eq lib _ hI2 k key hk, ?_, ?_⟩
    · exact matchValues_complete lib _ { key := key, value := v1 } (by simp [withEntry]) key
        List.infix_rfl
    · exact matchValues_complete lib _ { key := key, value := v2 } (by simp [withEntry]) key
        List.infix_rfl
  have cnt : ∀ (calls : List Call) (k : Bytes) (key : List Int) (v : Int),
      normalized lib k = some key →
        ∃ svc s r, runCalls lib NewFastMatching calls = .ok svc ∧
          RetrieveData lib svc k = .ok (s, r) ∧
          (liveEntries lib [] calls).count { key := key, value := v } ≤ (elems r).count v := by
    intro calls k key v hk
    obtain ⟨svc, hrun, hI, hdl⟩ := runCalls_eq lib calls NewFastMatching (Inv_New lib)
    refine ⟨svc, _, _, hrun, RetrieveData_eq lib svc hI k key hk, ?_⟩
    have hdl1 : svc.dataList = liveEntries lib [] calls := hdl
    rw [← hdl1]
    exact count_le_retrieved lib svc.dataList { key := key, value := v } key List.prefix_rfl
  refine ⟨?_, cnt, ?_, ?_⟩
  · intro calls k key v1 v2 hk
    obtain ⟨svc, hrun, hI, _⟩ := runCalls_eq lib calls NewFastMatching (Inv_New lib)
    obtain ⟨s1, s2, s3, r, h1, h2, h3, h4, h5⟩ := two svc k key v1 v2 hI hk
    exact ⟨svc, s1, s2, s3, r, hrun, h1, h2, h3, h4, h5⟩
  · intro calls k key v m hk
    obtain ⟨svc, s, r, hrun, hr, hc⟩ := cnt (calls ++ List.replicate m (.RegistData k v)) k key v hk
    refine ⟨svc, s, r, hrun, hr, Nat.le_trans ?_ hc⟩
    rw [liveEntries_append, liveEntries_replicate lib k key v hk, List.count_append,
      List.count_replicate_self]
    omega
  · exact two NewFastMatching (str "ab") [97, 98] 1 2 (Inv_New lib)
      ((normalized_of_ascii lib _ (by decide)).trans (by decide))

/-- C5 at a sample run: `Banana` registered with the value 3 three more times after
`demoCalls` is returned at least three times for `BANANA`. -/
theorem C5_duplicates_additive_witness :
    normalized stdLib (str "BANANA") = some [98, 97, 110, 97, 110, 97] ∧
      ∃ svc s r,
        runCalls stdLib NewFastMatching
          (demoCalls ++ List.replicate 3 (.RegistData (str "BANANA") 3)) = .ok svc ∧
        RetrieveData stdLib svc (str "BANANA") = .ok (s, r) ∧ 3 ≤ (elems r).count 3 :=
  ⟨by decide, (C5_duplicates_additive stdLib).2.2.1 demoCalls (str "BANANA")
    [98, 97, 110, 97, 110, 97] 3 3 (by decide)⟩

/-- C6. Clear empties the index. On every reachable index, dirty or built, `Clear` leaves
the entry store empty and the flag raised, and the next `RetrieveData(q)` returns a slice
with no element for every `q`; for a well-formed `q` it is the empty non-`nil` slice and
the search list has been rebuilt to the empty list. -/
theorem C6_clear_empties (lib : GoLib) (calls : List Call) (q : Bytes) :
    ∃ svc svc1 r, runCalls lib NewFastMatching calls = .ok svc ∧
      (Clear svc).dataList = [] ∧ (Clear svc).needReIndex = true ∧
      RetrieveData lib (Clear svc) q = .ok (svc1, r) ∧ elems r = [] ∧
      (∀ t, normalized lib q = some t →
        r = some [] ∧ svc1.searchList = some [] ∧ svc1.needReIndex = false ∧
          svc1.dataList = []) := by
  obtain ⟨svc, hrun, hI, _⟩ := runCalls_eq lib calls NewFastMatching (Inv_New lib)
  have hIc := Inv_Clear lib svc hI
  have hnil : rebuiltList lib (Clear svc).dataList = [] :=
    List.Perm.eq_nil (rebuiltList_perm lib (Clear svc).dataList)
  cases hq : normalized lib q with
  | none =>
    refine ⟨svc, _, _, hrun, rfl, rfl, RetrieveData_invalid lib _ q hq, rfl, ?_⟩
    intro t ht
    cases ht
  | some t =>
    have hr := RetrieveData_eq lib _ hIc q t hq
    rw [hnil] at hr
    refine ⟨svc, _, _, hrun, rfl, rfl, hr, rfl, ?_⟩
    intro t1 _
    refine ⟨rfl, ?_, rfl, rfl⟩
    simp only [rebuilt, hnil]

/-- C6 at a sample run: after `demoCalls` and a `Clear`, the query `an` returns the empty
slice. -/
theorem C6_clear_empties_witness :
    ∃ svc svc1, runCalls stdLib NewFastMatching demoCalls = .ok svc ∧
      RetrieveData stdLib (Clear svc) (str "an") = .ok (svc1, some []) := by
  obtain ⟨svc, svc1, r, hrun, _, _, hr, _, hall⟩ :=
    C6_clear_empties stdLib demoCalls (str "an")
  obtain ⟨hr1, _⟩ := hall [97, 110] (by decide)
  subst hr1
  exact ⟨svc, svc1, hrun, hr⟩

/-- C7. Retrieve is idempotent. On every reachable index and for every query `q`, two
`RetrieveData(q)` calls in a row return the same slice, and the second leaves the index as
the first left it; for a well-formed `q` the flag is down after the first call, and the
second call makes no use of the library sort: it does not rebuild. -/
theorem C7_retrieve_idempotent (lib : GoLib) (calls : List Call) (q : Bytes) :
    ∃ svc s1 r, runCalls lib NewFastMatching calls = .ok svc ∧
      RetrieveData lib svc q = .ok (s1, r) ∧ RetrieveData lib s1 q = .ok (s1, r) ∧
      (∀ t, normalized lib q = some t →
        s1.needReIndex = false ∧
        ∀ lib2 : GoLib, lib2.unicodeLower = lib.unicodeLower →
          RetrieveData lib2 s1 q = .ok (s1, r)) := by
  obtain ⟨svc, hrun, hI, _⟩ := runCalls_eq lib calls NewFastMatching (Inv_New lib)
  cases hq : normalized lib q with
  | none =>
    have h1 := RetrieveData_invalid lib svc q hq
    refine ⟨svc, svc, none, hrun, h1, h1, ?_⟩
    intro t ht
    cases ht
  | some t =>
    have h1 := RetrieveData_eq lib svc hI q t hq
    have h2 := RetrieveData_eq lib _ (Inv_rebuilt lib svc hI) q t hq
    have hself : rebuilt lib (rebuilt lib svc) = rebuilt lib svc := rfl
    rw [hself, rebuilt_dataList] at h2
    refine ⟨svc, _, _, hrun, h1, h2, ?_⟩
    intro t1 _
    refine ⟨rfl, ?_⟩
    intro lib2 hl
    rw [RetrieveData_clean lib lib2 _ q rfl hl, h2]

/-- C7 at a sample run: after `demoCalls` the query `an` asked twice returns `[3, 3]` both
times. -/
theorem C7_retrieve_idempotent_witness :
    ∃ svc s1, runCalls stdLib NewFastMatching demoCalls = .ok svc ∧
      RetrieveData stdLib svc (str "an") = .ok (s1, some [3, 3]) ∧
      RetrieveData stdLib s1 (str "an") = .ok (s1, some [3, 3]) ∧ s1.needReIndex = false := by
  obtain ⟨svc, s1, r, hrun, h1, h2, hall⟩ := C7_retrieve_idempotent stdLib demoCalls (str "an")
  have hr : runCalls stdLib NewFastMatching demoCalls >>= (fun s =>
      RetrieveData stdLib s (str "an") >>= fun p => .ok p.2) = .ok (some [3, 3]) := by decide
  rw [hrun, ok_bind, h1, ok_bind] at hr
  cases hr
  exact ⟨svc, s1, hrun, h1, h2, (hall [97, 110] (by decide)).1⟩

/-- C8. Over-long query. On every reachable index, a well-formed query whose normal form is
longer than the key of every live entry gets the empty slice, also when a registered key is
a full initial part of the query. -/
theorem C8_overlong_query (lib : GoLib) (calls : List Call) (q : Bytes) (t : List Int)
    (hq : normalized lib q = some t)
    (hlong : ∀ e ∈ liveEntries lib [] calls, e.key.length < t.length) :
    ∃ svc s1, runCalls lib NewFastMatching calls = .ok svc ∧
      RetrieveData lib svc q = .ok (s1, some []) := by
  obtain ⟨svc, hrun, hI, hdl⟩ := runCalls_eq lib calls NewFastMatching (Inv_New lib)
  have h := RetrieveData_eq lib svc hI q t hq
  rw [matchValues_overlong lib svc.dataList t (by rw [hdl]; exact hlong)] at h
  exact ⟨svc, _, hrun, h⟩

/-- C8 at a sample run: after `demoCalls` the live keys are the empty key and `banana`;
the query `bananas`, which `banana` starts, returns the empty slice. -/
theorem C8_overlong_query_witness :
    normalized stdLib (str "bananas") = some [98, 97, 110, 97, 110, 97, 115] ∧
      (∀ e ∈ liveEntries stdLib [] demoCalls,
        e.key.length < [98, 97, 110, 97, 110, 97, 115].length) ∧
      (∃ e ∈ liveEntries stdLib [] demoCalls, e.key <+: [98, 97, 110, 97, 110, 97, 115]) ∧
      ∃ svc s1, runCalls stdLib NewFastMatching demoCalls = .ok svc ∧
        RetrieveData stdLib svc (str "bananas") = .ok (s1, some []) :=
  ⟨by decide, by decide, by decide,
    C8_overlong_query stdLib demoCalls (str "bananas") [98, 97, 110, 97, 110, 97, 115]
      (by decide) (by decide)⟩

/-- C9. The empty query matches everything. On every reachable index `RetrieveData("")`
returns the value of every record of the rebuilt search list, in the order of the list, so
as many values as the list has records; with an empty entry store it returns the empty
slice. -/
theorem C9_empty_query (lib : GoLib) (calls : List Call) :
    ∃ svc s1 r l, runCalls lib NewFastMatching calls = .ok svc ∧
      RetrieveData lib svc [] = .ok (s1, some r) ∧
      s1.searchList = some l ∧ l = rebuiltList lib svc.dataList ∧
      r = l.map (fun it => it.value) ∧ r.length = l.length ∧
      (svc.dataList = [] → r = []) := by
  obtain ⟨svc, hrun, hI, _⟩ := runCalls_eq lib calls NewFastMatching (Inv_New lib)
  have h := RetrieveData_eq lib svc hI [] [] (normalized_empty lib)
  rw [matchValues_nil_query] at h
  refine ⟨svc, _, _, _, hrun, h, rfl, rfl, rfl, by simp, ?_⟩
  intro hd
  have hnil : rebuiltList lib svc.dataList = [] := by
    rw [hd]
    exact List.Perm.eq_nil (rebuiltList_perm lib [])
  rw [hnil]
  rfl

/-- C9 at a sample run: after `demoCalls` the empty query returns the seven values of the
seven records, the empty key's first. -/
theorem C9_empty_query_witness :
    ∃ svc s1, runCalls stdLib NewFastMatching demoCalls = .ok svc ∧
      RetrieveData stdLib svc [] = .ok (s1, some [7, 3, 3, 3, 3, 3, 3]) := by
  obtain ⟨svc, s1, r, l, hrun, h1, _⟩ := C9_empty_query stdLib demoCalls
  have hr : runCalls stdLib NewFastMatching demoCalls >>= (fun s =>
      RetrieveData stdLib s [] >>= fun p => .ok p.2) = .ok (some [7, 3, 3, 3, 3, 3, 3]) := by
    decide
  rw [hrun, ok_bind, h1, ok_bind] at hr
  cases hr
  exact ⟨svc, s1, hrun, h1⟩

/-- C10. `RegistData` reports a failed normalization atomically. `RegistData(key, value)`
returns, with `true` exactly when the lowercased key is well-formed UTF-8; with `false` the
index, its entry store included, is the one before the call; with `true` the entry store is
the one before the call with the new entry at its end. -/
theorem C10_regist_atomic (lib : GoLib) (svc : FastMatching) (keyword : Bytes) (value : Int) :
    ∃ svc1 ok, RegistData lib svc keyword value = .ok (svc1, ok) ∧
      (ok = true ↔ Valid (ToLower lib.unicodeLower keyword) = true) ∧
      (ok = false → svc1 = svc) ∧
      (ok = true → svc1.dataList = svc.dataList ++
        [{ key := runesOf (ToLower lib.unicodeLower keyword), value := value }]) := by
  by_cases hv : Valid (ToLower lib.unicodeLower keyword) = true
  · refine ⟨withEntry svc (runesOf (ToLower lib.unicodeLower keyword)) value, true, ?_,
      by simp [hv], by simp, fun _ => rfl⟩
    simp [RegistData, hv, String2RuneList_eq, withEntry]
  · refine ⟨svc, false, ?_, by simp [hv], fun _ => rfl, by simp⟩
    simp [RegistData, hv]

/-- C11. Registration only appends. A `RegistData(key, value)` that returns `true` leaves the
entry store as it was with the one entry (normal form of the key, value) added at its end,
leaves the search list and `nullResult` as they were, and raises the flag. -/
theorem C11_regist_only_appends (lib : GoLib) (svc svc1 : FastMatching) (keyword : Bytes)
    (value : Int) (h : RegistData lib svc keyword value = .ok (svc1, true)) :
    ∃ key, normalized lib keyword = some key ∧
      svc1.dataList = svc.dataList ++ [{ key := key, value := value }] ∧
      (∀ i, i < svc.dataList.length → svc1.dataList[i]? = svc.dataList[i]?) ∧
      svc1.dataList.length = svc.dataList.length + 1 ∧
      svc1.searchList = svc.searchList ∧ svc1.needReIndex = true ∧
      svc1.nullResult = svc.nullResult := by
  rw [RegistData_eq] at h
  cases hk : normalized lib keyword with
  | none =>
    rw [hk] at h
    cases h
  | some key =>
    rw [hk] at h
    cases h
    refine ⟨key, rfl, rfl, ?_, by simp [withEntry], rfl, rfl, rfl⟩
    intro i hi
    simp [withEntry, List.getElem?_append_left hi]

/-- C11 at a sample index: `Hello` registered on the index `demoCalls` and a query leave
behind keeps the two entries and the built search list, and raises the flag. -/
theorem C11_regist_only_appends_witness :
    ∃ svc svc1, runCalls stdLib NewFastMatching (demoCalls ++ [.RetrieveData (str "an")])
        = .ok svc ∧
      svc.needReIndex = false ∧
      RegistData stdLib svc (str "Hello") 5 = .ok (svc1, true) ∧
      svc1.dataList = svc.dataList ++ [{ key := [104, 101, 108, 108, 111], value := 5 }] ∧
      svc1.searchList = svc.searchList ∧ svc1.needReIndex = true := by
  obtain ⟨svc, hrun, hI, _⟩ :=
    runCalls_eq stdLib (demoCalls ++ [.RetrieveData (str "an")]) NewFastMatching
      (Inv_New stdLib)
  have hflag : (runCalls stdLib NewFastMatching (demoCalls ++ [.RetrieveData (str "an")])
      >>= fun s => .ok s.needReIndex) = .ok false := by decide
  rw [hrun, ok_bind] at hflag
  have hreg : RegistData stdLib svc (str "Hello") 5
      = .ok (withEntry svc [104, 101, 108, 108, 111] 5, true) := by
    rw [RegistData_eq]
    have hk : normalized stdLib (str "Hello") = some [104, 101, 108, 108, 111] := by decide
    rw [hk]
  obtain ⟨key, hk, hd, _, _, hs, hn, _⟩ :=
    C11_regist_only_appends stdLib svc _ (str "Hello") 5 hreg
  have hkey : key = [104, 101, 108, 108, 111] := by
    have hk2 : normalized stdLib (str "Hello") = some [104, 101, 108, 108, 111] := by decide
    rw [hk2] at hk
    cases hk
    rfl
  subst hkey
  exact ⟨svc, _, hrun, by simpa using hflag, hreg, hd, hs, hn⟩

/-- C13 fails as stated. An entry with the empty key, registered on a new index, gives the
rebuilt search list one record, while the entry has no suffix record and the key lengths
add up to zero. -/
theorem C13_suffix_expansion_counterexample :
    RegistData stdLib NewFastMatching (str "") 7 = .ok (withEntry NewFastMatching [] 7, true) ∧
      (∃ svc1, reindex stdLib (withEntry NewFastMatching [] 7) = .ok svc1 ∧
        svc1.searchList = some [{ key := [], value := 7 }]) ∧
      (withEntry NewFastMatching [] 7).dataList.flatMap suffixRecords = [] ∧
      ((withEntry NewFastMatching [] 7).dataList.map (fun e => e.key.length)).sum = 0 :=
  ⟨by decide, ⟨rebuilt stdLib (withEntry NewFastMatching [] 7), by decide, by decide⟩,
    by decide, by decide⟩

/-- C13, amended. A rebuild makes the search list a rearrangement of the records of the
entries of the entry store, where an entry whose key has length `L ≥ 1` gives exactly its
`L` suffix records `(key[i:], value)`, `0 ≤ i < L`, and an entry with the empty key gives
one record, itself; the search list has as many records as the sum of `max 1 L`. When no
key of the store is empty, the list is a rearrangement of the suffix records and its length
is the sum of the key lengths. -/
theorem C13_suffix_expansion (lib : GoLib) (svc : FastMatching)
    (h : svc.needReIndex = true) :
    ∃ l, reindex lib svc = .ok { svc with searchList := some l, needReIndex := false } ∧
      l.Perm (svc.dataList.flatMap recordsOf) ∧
      l.length = (svc.dataList.map (fun e => max 1 e.key.length)).sum ∧
      (∀ e : searchItem, e.key ≠ [] →
        recordsOf e = suffixRecords e ∧ (recordsOf e).length = e.key.length) ∧
      (∀ e : searchItem, e.key = [] → recordsOf e = [e]) ∧
      ((∀ e ∈ svc.dataList, e.key ≠ []) →
        l.Perm (svc.dataList.flatMap suffixRecords) ∧
        l.length = (svc.dataList.map (fun e => e.key.length)).sum) := by
  have hp : (rebuiltList lib svc.dataList).Perm (svc.dataList.flatMap recordsOf) := by
    rw [← flatMap_suffixItems]
    exact rebuiltList_perm lib svc.dataList
  refine ⟨rebuiltList lib svc.dataList, reindex_eq lib svc h, hp, ?_, ?_, ?_, ?_⟩
  · rw [hp.length_eq, length_flatMap_recordsOf]
  · intro e he
    have h1 : recordsOf e = suffixRecords e := by simp [recordsOf, he]
    refine ⟨h1, ?_⟩
    rw [h1]
    simp [suffixRecords]
  · intro e he
    simp [recordsOf, he]
  · intro hne
    have hp2 := hp
    rw [flatMap_recordsOf_of_ne_nil _ hne] at hp2
    exact ⟨hp2, by rw [hp2.length_eq, length_flatMap_suffixRecords]⟩

/-- C13, amended, at a sample index: `Hello` registered on a new index gives the rebuilt
search list five records. -/
theorem C13_suffix_expansion_witness :
    (withEntry NewFastMatching [104, 101, 108, 108, 111] 1).needReIndex = true ∧
      ∃ l, reindex stdLib (withEntry NewFastMatching [104, 101, 108, 108, 111] 1)
          = .ok { withEntry NewFastMatching [104, 101, 108, 108, 111] 1 with
              searchList := some l, needReIndex := false } ∧
        l.length = 5 := by
  obtain ⟨l, h1, _, h3, _⟩ :=
    C13_suffix_expansion stdLib (withEntry NewFastMatching [104, 101, 108, 108, 111] 1) rfl
  exact ⟨rfl, l, h1, by rw [h3]; decide⟩

/-- C14. Sortedness invariant. `ByRune.Less` always returns and is the order of the
specification: the smaller code point at the first differing position decides, and a proper
initial part comes first. In every index reached from a new one by `RegistData`,
`RetrieveData` and `Clear` with `needReIndex` false, the search list is there and sorted in
that order: for all positions `i < j` the key at `j` is not less than the key at `i`. -/
theorem C14_sortedness_invariant (lib : GoLib) (calls : List Call) :
    (∀ (a : List searchItem) (i j : Nat) (hi : i < a.length) (hj : j < a.length),
      ∃ b, ByRune.Less a i j = .ok b ∧
        (b = true ↔ specLess (a.get ⟨i, hi⟩).key (a.get ⟨j, hj⟩).key)) ∧
    ∃ svc, runCalls lib NewFastMatching calls = .ok svc ∧
      (svc.needReIndex = false →
        ∃ l, svc.searchList = some l ∧
          (∀ i j, i < j → j < l.length → ByRune.Less l j i = .ok false) ∧
          (∀ (i j : Nat) (hi : i < l.length) (hj : j < l.length), i < j →
            ¬ specLess (l.get ⟨j, hj⟩).key (l.get ⟨i, hi⟩).key)) := by
  refine ⟨?_, ?_⟩
  · intro a i j hi hj
    exact ⟨_, Less_eq a i j hi hj, keyLess_iff_specLess _ _⟩
  · obtain ⟨svc, hrun, hI, _⟩ := runCalls_eq lib calls NewFastMatching (Inv_New lib)
    refine ⟨svc, hrun, ?_⟩
    intro hn
    refine ⟨_, hI.2 hn, fun i j hij hj => lib.sort_sorted _ i j hij hj, ?_⟩
    intro i j hi hj hij hless
    have h1 : ByRune.Less (rebuiltList lib svc.dataList) j i = .ok false :=
      lib.sort_sorted _ i j hij hj
    rw [Less_eq _ j i hj hi] at h1
    have h2 := (keyLess_iff_specLess _ _).mpr hless
    rw [h2] at h1
    cases h1

/-- C14 at a sample run: after `demoCalls` and the query `an` the flag is down and the
search list is the seven records in order, the empty key first. -/
theorem C14_sortedness_invariant_witness :
    ∃ svc, runCalls stdLib NewFastMatching (demoCalls ++ [.RetrieveData (str "an")])
        = .ok svc ∧
      svc.needReIndex = false ∧
      svc.searchList = some [{ key := [], value := 7 }, { key := [97], value := 3 },
        { key := [97, 110, 97], value := 3 }, { key := [97, 110, 97, 110, 97], value := 3 },
        { key := [98, 97, 110, 97, 110, 97], value := 3 }, { key := [110, 97], value := 3 },
        { key := [110, 97, 110, 97], value := 3 }] ∧
      ∃ l, svc.searchList = some l ∧
        ∀ i j, i < j → j < l.length → ByRune.Less l j i = .ok false := by
  obtain ⟨svc, hrun, hsorted⟩ :=
    (C14_sortedness_invariant stdLib (demoCalls ++ [.RetrieveData (str "an")])).2
  have hstate : (runCalls stdLib NewFastMatching (demoCalls ++ [.RetrieveData (str "an")])
      >>= fun s => .ok (s.needReIndex, s.searchList))
      = .ok (false, some [{ key := [], value := 7 }, { key := [97], value := 3 },
        { key := [97, 110, 97], value := 3 }, { key := [97, 110, 97, 110, 97], value := 3 },
        { key := [98, 97, 110, 97, 110, 97], value := 3 }, { key := [110, 97], value := 3 },
        { key := [110, 97, 110, 97], value := 3 }]) := by decide
  rw [hrun, ok_bind] at hstate
  have hn : svc.needReIndex = false := by
    have := congrArg (fun r => r.toOption.map Prod.fst) hstate
    simpa [Except.toOption] using this
  have hl := congrArg (fun r => r.toOption.map Prod.snd) hstate
  obtain ⟨l, hl1, hl2, _⟩ := hsorted hn
  exact ⟨svc, hrun, hn, by simpa [Except.toOption] using hl, l, hl1, hl2⟩

/-- C15. Dirty-flag coherence. In every reachable index with the flag down, the search list
is exactly what a rebuild of the current entry store makes: running `reindex` with the flag
raised gives the same index back. Whatever public call comes next returns; a `RegistData`
that succeeds and a `Clear` leave the flag raised, a `RegistData` that fails leaves the
index as it was, and the flag goes from raised to down only in a `RetrieveData`, whose
index is then the one `reindex` makes. -/
theorem C15_dirty_flag_coherence (lib : GoLib) (calls : List Call) (c : Call) :
    ∃ svc svc1, runCalls lib NewFastMatching calls = .ok svc ∧ call lib svc c = .ok svc1 ∧
      (svc.needReIndex = false →
        svc.searchList = some (lib.sort (svc.dataList.flatMap suffixItems)) ∧
        reindex lib { svc with needReIndex := true } = .ok svc) ∧
      (∀ k v, c = .RegistData k v → normalized lib k ≠ none → svc1.needReIndex = true) ∧
      (∀ k v, c = .RegistData k v → normalized lib k = none → svc1 = svc) ∧
      (c = .Clear → svc1.needReIndex = true) ∧
      (svc.needReIndex = true → svc1.needReIndex = false →
        ∃ q, c = .RetrieveData q ∧ reindex lib svc = .ok svc1) := by
  obtain ⟨svc, hrun, hI, _⟩ := runCalls_eq lib calls NewFastMatching (Inv_New lib)
  have hfresh : svc.needReIndex = false →
      svc.searchList = some (lib.sort (svc.dataList.flatMap suffixItems)) ∧
      reindex lib { svc with needReIndex := true } = .ok svc := by
    intro hn
    refine ⟨hI.2 hn, ?_⟩
    rw [reindex_eq lib _ rfl]
    have h := rebuilt_eq_self lib svc hI hn
    simpa [rebuilt] using h
  cases c with
  | RegistData k v =>
    cases hk : normalized lib k with
    | none =>
      refine ⟨svc, svc, hrun, by simp [call, RegistData_eq, hk], hfresh, ?_, ?_, ?_, ?_⟩
      · intro k1 v1 hc hne
        cases hc
        exact absurd hk hne
      · intro _ _ _ _
        rfl
      · intro hc
        cases hc
      · intro h1 h2
        rw [h1] at h2
        cases h2
    | some key =>
      refine ⟨svc, withEntry svc key v, hrun, by simp [call, RegistData_eq, hk], hfresh,
        ?_, ?_, ?_, ?_⟩
      · intro _ _ _ _
        rfl
      · intro k1 v1 hc hnone
        cases hc
        rw [hk] at hnone
        cases hnone
      · intro hc
        cases hc
      · intro _ h2
        simp [withEntry] at h2
  | RetrieveData q =>
    cases hq : normalized lib q with
    | none =>
      refine ⟨svc, svc, hrun, by simp [call, RetrieveData_invalid lib svc q hq], hfresh,
        ?_, ?_, ?_, ?_⟩
      · intro k v hc
        cases hc
      · intro k v hc
        cases hc
      · intro hc
        cases hc
      · intro h1 h2
        rw [h1] at h2
        cases h2
    | some t =>
      refine ⟨svc, rebuilt lib svc, hrun, by simp [call, RetrieveData_eq lib svc hI q t hq],
        hfresh, ?_, ?_, ?_, ?_⟩
      · intro k v hc
        cases hc
      · intro k v hc
        cases hc
      · intro hc
        cases hc
      · intro h1 _
        exact ⟨q, rfl, reindex_eq lib svc h1⟩
  | Clear =>
    refine ⟨svc, Clear svc, hrun, rfl, hfresh, ?_, ?_, ?_, ?_⟩
    · intro k v hc
      cases hc
    · intro k v hc
      cases hc
    · intro _
      rfl
    · intro _ h2
      simp [Clear] at h2

/-- C16. The range query equals a linear scan. On a clean index whose search list is sorted
by `ByRune.Less`, `findMatches` returns, leaves the index as it was, and yields exactly the
values of the records whose key starts with the query, each record once, in the order of
the search list: what the linear scan over the whole list gives, `nil` when no record
matches. The matching records form one run of consecutive positions. -/
theorem C16_range_query_linear_scan (lib : GoLib) (svc : FastMatching) (l : List searchItem)
    (t : List Int) (hl : svc.searchList = some l) (hn : svc.needReIndex = false)
    (hs : ∀ i j, i < j → j < l.length → ByRune.Less l j i = .ok false) :
    ∃ r, findMatches lib svc t = .ok (svc, r) ∧ elems r = linearScan t l ∧
      (r = none ↔ ∀ x ∈ l, ¬ t <+: x.key) ∧
      ∃ A B C, l = A ++ B ++ C ∧ (∀ x ∈ A, ¬ t <+: x.key) ∧ (∀ x ∈ B, t <+: x.key) ∧
        (∀ x ∈ C, ¬ t <+: x.key) ∧ elems r = B.map (fun it => it.value) := by
  have hS := Sorted_of_Less l hs
  refine ⟨sliceOf (matchValues t l), findMatches_sorted lib svc l t hl hn hS, ?_, ?_, ?_⟩
  · rw [elems_sliceOf, linearScan_eq_matchValues]
  · simp only [sliceOf, matchValues]
    constructor
    · intro h
      split at h
      · rename_i hnil
        intro x hx hpre
        have hmem : x.value ∈ (l.filter (fun it => decide (t <+: it.key))).map
            (fun it => it.value) :=
          List.mem_map.mpr ⟨x, List.mem_filter.mpr ⟨hx, by simpa using hpre⟩, rfl⟩
        rw [hnil] at hmem
        cases hmem
      · cases h
    · intro h
      have hnil : (l.filter (fun it => decide (t <+: it.key))).map (fun it => it.value) = [] := by
        rw [List.map_eq_nil_iff, List.filter_eq_nil_iff]
        intro x hx
        simpa using h x hx
      simp [hnil]
  · obtain ⟨A, B, C, hABC, hA, hB, hC⟩ := Sorted_split t l hS
    refine ⟨A, B, C, hABC, ?_, ?_, ?_, ?_⟩
    · intro x hx hpre
      have := hA x hx
      rw [(cmpKey_eq_zero_iff x.key t).mpr hpre] at this
      omega
    · intro x hx
      exact (cmpKey_eq_zero_iff x.key t).mp (hB x hx)
    · intro x hx hpre
      have := hC x hx
      rw [(cmpKey_eq_zero_iff x.key t).mpr hpre] at this
      omega
    · rw [elems_sliceOf, hABC, matchValues_split t A B C hA hB hC]

/-- C16 at a sample index: on the rebuilt index holding `hello`, the query `l` gets the
values of the two records `llo` and `lo`. -/
theorem C16_range_query_linear_scan_witness :
    ∃ r, findMatches stdLib (rebuilt stdLib (withEntry NewFastMatching [104, 101, 108, 108, 111] 1))
        [108] = .ok (rebuilt stdLib (withEntry NewFastMatching [104, 101, 108, 108, 111] 1), r) ∧
      elems r = [1, 1] := by
  obtain ⟨r, h1, h2, _⟩ := C16_range_query_linear_scan stdLib
    (rebuilt stdLib (withEntry NewFastMatching [104, 101, 108, 108, 111] 1))
    (rebuiltList stdLib (withEntry NewFastMatching [104, 101, 108, 108, 111] 1).dataList)
    [108] rfl rfl (fun i j hij hj => stdLib.sort_sorted _ i j hij hj)
  refine ⟨r, h1, ?_⟩
  rw [h2]
  decide

/-- C17. Comparator semantics. For every search list and query: `subRuneCompare` returns
`-1` for a position below zero and `1` for a position at or beyond the length; for a
position in range it returns, with `0` exactly when the query is an initial part of the key
there (so the query is no longer than the key), a negative value exactly when the query is
not an initial part and the key is `Less` than the query (a key that is a proper initial
part of the query included), and a positive value exactly when the query is not an initial
part and the query is `Less` than the key. -/
theorem C17_comparator_semantics (svc : FastMatching) (l : List searchItem) (t : List Int)
    (hl : svc.searchList = some l) :
    (∀ pos : Int, pos < 0 → subRuneCompare svc pos t = .ok (-1)) ∧
    (∀ pos : Int, (l.length : Int) ≤ pos → subRuneCompare svc pos t = .ok 1) ∧
    ∀ (k : Nat) (hk : k < l.length),
      ∃ c, subRuneCompare svc (k : Int) t = .ok c ∧
        (c = 0 ↔ t <+: (l.get ⟨k, hk⟩).key) ∧
        (c = 0 → t.length ≤ (l.get ⟨k, hk⟩).key.length) ∧
        (c < 0 ↔ ¬ t <+: (l.get ⟨k, hk⟩).key ∧
          ByRune.LessKeys (l.get ⟨k, hk⟩).key t = .ok true) ∧
        (0 < c ↔ ¬ t <+: (l.get ⟨k, hk⟩).key ∧
          ByRune.LessKeys t (l.get ⟨k, hk⟩).key = .ok true) ∧
        (t <+: (l.get ⟨k, hk⟩).key ∨ (l.get ⟨k, hk⟩).key <+: t → c ≤ 0) := by
  refine ⟨fun pos h => subRuneCompare_neg svc t pos h,
    fun pos h => subRuneCompare_ge svc t l hl pos h, ?_⟩
  intro k hk
  refine ⟨_, subRuneCompare_at svc t l hl k hk, cmpKey_eq_zero_iff _ _, ?_, ?_, ?_, ?_⟩
  · intro h
    exact ((cmpKey_eq_zero_iff _ _).mp h).length_le
  · rw [cmpKey_neg_iff, LessKeys_eq]
    simp
  · rw [cmpKey_pos_iff, LessKeys_eq]
    simp
  · rintro (h | h)
    · rw [(cmpKey_eq_zero_iff _ _).mpr h]
    · by_contra hc
      have hpos : 0 < cmpKey (l.get ⟨k, hk⟩).key t := by omega
      obtain ⟨hnp, hless⟩ := (cmpKey_pos_iff _ _).mp hpos
      obtain ⟨s, hs⟩ := h
      have hsl := (keyLess_iff_specLess _ _).mp hless
      rcases hsl with ⟨p, x, r, y, s2, h1, h2, h3⟩ | ⟨s2, hs2, h2⟩
      · rw [h1, h2] at hs
        simp only [List.append_assoc, List.cons_append, List.append_cancel_left_eq,
          List.cons.injEq] at hs
        omega
      · rw [h2] at hs
        have hlen := congrArg List.length hs
        simp only [List.length_append] at hlen
        have : 0 < s2.length := List.length_pos.mpr hs2
        omega

/-- C17 at a sample index: on `unsortedIndex` the query `[2, 3]` compares negative with the
key `[2]`, a proper initial part of it, and zero with the key `[2, 3]`. -/
theorem C17_comparator_semantics_witness :
    subRuneCompare unsortedIndex 0 [2, 3] = .ok (-1) ∧
      subRuneCompare unsortedIndex 2 [2, 3] = .ok 0 ∧
      subRuneCompare unsortedIndex (-1) [2, 3] = .ok (-1) ∧
      subRuneCompare unsortedIndex 3 [2, 3] = .ok 1 := by
  obtain ⟨h1, h2, _⟩ := C17_comparator_semantics unsortedIndex _ [2, 3] rfl
  exact ⟨by decide, by decide, h1 (-1) (by decide), h2 3 (by decide)⟩

/-- C18. Queries run to completion. Whatever the search list holds, sorted or not, empty or
not, `findMatches` returns within the turns the model allows its loops (the length of the
list for each): the middle position lies in the interval, so either half the binary search
goes on with is strictly shorter, and a position outside the list never compares equal, so
the two widening loops stop at the ends of the list at the latest. -/
theorem C18_queries_terminate (lib : GoLib) (svc : FastMatching) (t : List Int)
    (h : svc.needReIndex = false → svc.searchList ≠ none) :
    (∃ svc1 r, findMatches lib svc t = .ok (svc1, r)) ∧
    (∀ from_ to_ : Int, from_ ≤ to_ →
      to_ - ((from_ + to_) >>> (1 : Nat) + 1) < to_ - from_ ∧
      ((from_ + to_) >>> (1 : Nat) - 1) - from_ < to_ - from_) ∧
    (∀ l, svc.searchList = some l → ∀ pos : Int, pos < 0 ∨ (l.length : Int) ≤ pos →
      ∃ c, subRuneCompare svc pos t = .ok c ∧ c ≠ 0) ∧
    (∀ l, svc.searchList = some l → ∀ pos : Int, 0 ≤ pos → pos < l.length →
      ∃ from_ to_, expandLeft svc t l.length pos = .ok from_ ∧
        expandRight svc t l.length pos = .ok to_ ∧
        0 ≤ from_ ∧ from_ ≤ pos ∧ pos ≤ to_ ∧ to_ < l.length) := by
  refine ⟨findMatches_total lib svc t h, ?_, ?_, ?_⟩
  · intro from_ to_ hle
    obtain ⟨h1, h2⟩ := mid_mem from_ to_ hle
    omega
  · intro l hl pos hpos
    obtain ⟨c, hc, hout⟩ := subRuneCompare_total svc t l hl pos
    exact ⟨c, hc, hout hpos⟩
  · intro l hl pos h0 h1
    obtain ⟨f, hf, hf0, hf1⟩ := expandLeft_total svc t l hl l.length pos h0 (by omega)
    obtain ⟨u, hu, hu0, hu1⟩ := expandRight_total svc t l hl l.length pos h1 (by omega)
    exact ⟨f, u, hf, hu, hf0, hf1, hu0, hu1⟩

/-- C18 at a sample index: on `unsortedIndex`, whose search list is out of order,
`findMatches` returns for the query `[2]`. -/
theorem C18_queries_terminate_witness :
    (unsortedIndex.needReIndex = false → unsortedIndex.searchList ≠ none) ∧
      findMatches stdLib unsortedIndex [2] = .ok (unsortedIndex, some [3]) ∧
      ∃ svc1 r, findMatches stdLib unsortedIndex [1] = .ok (svc1, r) :=
  ⟨by decide, by decide,
    (C18_queries_terminate stdLib unsortedIndex [1] (by decide)).1⟩

/-- C19. One result per occurrence, not per entry. On every reachable index and for every
well-formed query with a non-empty normal form, `RetrieveData` returns, up to order, the
value of each entry once for each position at which the query occurs in the entry's key,
overlapping occurrences counted, so as many values as there are occurrences in all; on a
new index `RegistData("aa", 1)` followed by `RetrieveData("a")` returns `[1, 1]`. -/
theorem C19_one_result_per_occurrence (lib : GoLib) :
    (∀ (calls : List Call) (q : Bytes) (t : List Int), normalized lib q = some t → t ≠ [] →
      ∃ svc s1 r, runCalls lib NewFastMatching calls = .ok svc ∧
        RetrieveData lib svc q = .ok (s1, some r) ∧
        r.Perm (svc.dataList.flatMap
          (fun e => List.replicate (occurrences t e.key).length e.value)) ∧
        r.length = (svc.dataList.map (fun e => (occurrences t e.key).length)).sum) ∧
    ∃ s1 s2, RegistData lib NewFastMatching (str "aa") 1 = .ok (s1, true) ∧
      RetrieveData lib s1 (str "a") = .ok (s2, some [1, 1]) := by
  have main : ∀ (svc : FastMatching) (q : Bytes) (t : List Int), Inv lib svc →
      normalized lib q = some t → t ≠ [] →
      ∃ r, RetrieveData lib svc q = .ok (rebuilt lib svc, some r) ∧
        r.Perm (svc.dataList.flatMap
          (fun e => List.replicate (occurrences t e.key).length e.value)) := by
    intro svc q t hI hq hne
    obtain ⟨r, hr, hp⟩ := RetrieveData_perm lib svc hI q t hq
    refine ⟨r, hr, ?_⟩
    rw [matchValues_flatMap] at hp
    have hfun : (fun e => matchValues t (suffixItems e))
        = (fun e => List.replicate (occurrences t e.key).length e.value) :=
      funext (matchValues_suffixItems t hne)
    rw [hfun] at hp
    exact hp
  refine ⟨?_, ?_⟩
  · intro calls q t hq hne
    obtain ⟨svc, hrun, hI, _⟩ := runCalls_eq lib calls NewFastMatching (Inv_New lib)
    obtain ⟨r, hr, hp⟩ := main svc q t hI hq hne
    exact ⟨svc, _, r, hrun, hr, hp, by rw [hp.length_eq, length_flatMap_replicate]⟩
  · have hk : normalized lib (str "aa") = some [97, 97] :=
      (normalized_of_ascii lib _ (by decide)).trans (by decide)
    have hq : normalized lib (str "a") = some [97] :=
      (normalized_of_ascii lib _ (by decide)).trans (by decide)
    obtain ⟨r, hr, hp⟩ := main (withEntry NewFastMatching [97, 97] 1) (str "a") [97]
      (Inv_withEntry lib _ (Inv_New lib) _ _) hq (by decide)
    have hrep : (withEntry NewFastMatching [97, 97] 1).dataList.flatMap
        (fun e => List.replicate (occurrences [97] e.key).length e.value)
        = List.replicate 2 1 := by decide
    rw [hrep] at hp
    have hr2 : r = [1, 1] := by
      have := List.perm_replicate.mp hp
      simpa using this
    subst hr2
    exact ⟨_, _, by rw [RegistData_eq, hk], hr⟩

/-- C19 at a sample run: after `demoCalls` the query `ana` occurs twice in `banana`,
overlapping, and two values are returned. -/
theorem C19_one_result_per_occurrence_witness :
    normalized stdLib (str "ana") = some [97, 110, 97] ∧
      occurrences [97, 110, 97] [98, 97, 110, 97, 110, 97] = [1, 3] ∧
      ∃ svc s1 r, runCalls stdLib NewFastMatching demoCalls = .ok svc ∧
        RetrieveData stdLib svc (str "ana") = .ok (s1, some r) ∧ r.length = 2 := by
  obtain ⟨svc, s1, r, hrun, hr, _, hlen⟩ :=
    (C19_one_result_per_occurrence stdLib).1 demoCalls (str "ana") [97, 110, 97] (by decide)
      (by decide)
  have hd : (runCalls stdLib NewFastMatching demoCalls >>= fun s =>
      .ok ((s.dataList.map (fun e => (occurrences [97, 110, 97] e.key).length)).sum))
      = .ok 2 := by decide
  rw [hrun, ok_bind] at hd
  have hsum : (svc.dataList.map (fun e => (occurrences [97, 110, 97] e.key).length)).sum = 2 := by
    have := congrArg (fun x => x.toOption) hd
    simpa [Except.toOption] using this
  exact ⟨by decide, by decide, svc, s1, r, hrun, hr, by rw [hlen, hsum]⟩

/-- C20. Queries are index-safe. In every index reached from a new one by `RegistData`,
`RetrieveData` and `Clear`, the search list is not `nil` whenever `needReIndex` is false,
and `RetrieveData` returns for every query: in the model every pointer dereference and
every read or write of the search list, the keys and the result slice is checked, and none
fails. The same holds of `findMatches` for every target, and of `subRuneCompare` at every
position, in range or not, on the index it leaves. -/
theorem C20_queries_index_safe (lib : GoLib) (calls : List Call) (q : Bytes) :
    ∃ svc svc1 r, runCalls lib NewFastMatching calls = .ok svc ∧
      (svc.needReIndex = false → ∃ l, svc.searchList = some l) ∧
      RetrieveData lib svc q = .ok (svc1, r) ∧
      (∀ t : List Int, ∃ s2 r2, findMatches lib svc t = .ok (s2, r2) ∧
        ∃ l, s2.searchList = some l ∧
          ∀ pos : Int, ∃ c, subRuneCompare s2 pos t = .ok c) := by
  obtain ⟨svc, hrun, hI, _⟩ := runCalls_eq lib calls NewFastMatching (Inv_New lib)
  have hfind : ∀ t : List Int, ∃ s2 r2, findMatches lib svc t = .ok (s2, r2) ∧
      ∃ l, s2.searchList = some l ∧ ∀ pos : Int, ∃ c, subRuneCompare s2 pos t = .ok c := by
    intro t
    refine ⟨_, _, findMatches_eq lib svc hI t, rebuiltList lib svc.dataList, rfl, ?_⟩
    intro pos
    obtain ⟨c, hc, _⟩ := subRuneCompare_total (rebuilt lib svc) t _ rfl pos
    exact ⟨c, hc⟩
  cases hq : normalized lib q with
  | none =>
    exact ⟨svc, svc, none, hrun, fun hn => ⟨_, hI.2 hn⟩, RetrieveData_invalid lib svc q hq,
      hfind⟩
  | some t =>
    exact ⟨svc, _, _, hrun, fun hn => ⟨_, hI.2 hn⟩, RetrieveData_eq lib svc hI q t hq, hfind⟩

/-- C20 at sample runs: on a new index with an empty store the empty query returns the
empty slice, and after `demoCalls` the query `bananas`, longer than every key, returns. -/
theorem C20_queries_index_safe_witness :
    RetrieveData stdLib NewFastMatching [] = .ok (rebuilt stdLib NewFastMatching, some []) ∧
      ∃ svc svc1 r, runCalls stdLib NewFastMatching demoCalls = .ok svc ∧
        RetrieveData stdLib svc (str "bananas") = .ok (svc1, r) := by
  obtain ⟨svc, svc1, r, hrun, _, hr, _⟩ :=
    C20_queries_index_safe stdLib demoCalls (str "bananas")
  exact ⟨by decide, svc, svc1, r, hrun, hr⟩

end fastmatching
